import Mathlib

/-!
Shallow embedding of `src/Libraries/NavigationExperimental/Reducer/NavigationScenesReducer.js`
(the scene-list reconciler of the NavigationExperimental library) together with proofs of the
specification's testable properties.

Modelling conventions:
* JavaScript object identity (reference equality, `===`) is modelled by an explicit numeric
  identity token carried on every route (`rid`), navigation state (`stateId`) and scene
  (`sceneId`); equality of the Lean records is then exactly reference equality of the
  corresponding JavaScript objects.  Scene objects freshly allocated inside a reducer call
  receive tokens strictly above every token of the incoming scene list (see `freshBase`),
  mirroring the fact that a newly constructed object is distinct from every existing one.
* JavaScript `Map` (string keys, insertion-order iteration, `set` replaces in place,
  `delete` removes) is modelled by an association list (`SceneMap`); all maps built by the
  reducer start empty and are only updated through `mapSet`/`mapDelete`, which keeps their
  keys pairwise distinct.
* The fatal `invariant(...)` call is modelled by returning `none` (`Option`): `none` is the
  raised `DuplicateSiblingKeyViolation`, `some` is a normal return.
* `Array.prototype.sort(compareScenes)` is modelled by an insertion sort driven by the same
  comparator (an element is placed before another when the comparator yields a negative
  number); on the reducer's merge output the comparator is a strict total order, for which
  every comparison sort produces this unique order.
* JavaScript string comparison `one > two` is lexicographic by code unit; it is modelled by
  the structural boolean `charListLt` on the underlying character lists (`stringGt`), and
  `.length` by `String.length` (identical on the ASCII keys involved).
-/

/-- Model of a navigation route: an opaque object with a string `key`; `rid` is the object
identity token. -/
structure NavigationRoute where
  rid : Nat
  key : String
deriving DecidableEq

/-- Model of a navigation state: an ordered sequence of child routes and an active `index`;
`stateId` is the object identity token. -/
structure NavigationState where
  stateId : Nat
  index : Nat
  children : List NavigationRoute
deriving DecidableEq

/-- Model of a scene record `\x7bindex, isStale, key, route\x7d`; `sceneId` is the object
identity token. -/
structure NavigationScene where
  sceneId : Nat
  index : Nat
  isStale : Bool
  key : String
  route : NavigationRoute
deriving DecidableEq

/-- Lexicographic (code-unit) comparison of character lists: the model of the JavaScript
string `<` relation used by `one > two` in `compareKey`. -/
def charListLt : List Char → List Char → Bool
  | [], [] => false
  | [], _ :: _ => true
  | _ :: _, [] => false
  | a :: as, b :: bs => if a < b then true else if b < a then false else charListLt as bs

/-- Model of the JavaScript expression `one > two` on strings. -/
def stringGt (one two : String) : Bool :=
  charListLt two.data one.data

/-- Translation of `compareKey` (lines 27-36 of the source): compare by length first, then
lexicographically. -/
def compareKey (one two : String) : Int :=
  let delta : Int := (one.length : Int) - (two.length : Int)
  if delta > 0 then 1
  else if delta < 0 then -1
  else if stringGt one two then 1 else -1

/-- Translation of `compareScenes` (lines 41-56): compare by `index`, ties by `compareKey`. -/
def compareScenes (one two : NavigationScene) : Int :=
  if one.index > two.index then 1
  else if one.index < two.index then -1
  else compareKey one.key two.key

/-- Translation of `areScenesShallowEqual` (lines 58-69).  Note that the identity token is
not compared: this is a field-wise comparison, with `one.route === two.route` being
record equality under the identity-token model. -/
def areScenesShallowEqual (one two : NavigationScene) : Bool :=
  one.key == two.key &&
  one.index == two.index &&
  one.isStale == two.isStale &&
  one.route == two.route &&
  one.route.key == two.route.key

/-- Association-list model of a JavaScript `Map<string, NavigationScene>`. -/
abbrev SceneMap := List (String × NavigationScene)

/-- Model of `Map.prototype.set`: replace in place if present, append otherwise. -/
def mapSet : SceneMap → String → NavigationScene → SceneMap
  | [], k, v => [(k, v)]
  | (k0, v0) :: rest, k, v =>
      if k0 = k then (k, v) :: rest else (k0, v0) :: mapSet rest k v

/-- Model of `Map.prototype.get` (as an `Option`). -/
def mapGet? : SceneMap → String → Option NavigationScene
  | [], _ => none
  | (k0, v0) :: rest, k => if k0 = k then some v0 else mapGet? rest k

/-- Model of `Map.prototype.has`. -/
def mapHas (m : SceneMap) (k : String) : Bool :=
  (mapGet? m k).isSome

/-- Model of `Map.prototype.delete` (the maps built here never hold a key twice). -/
def mapDelete : SceneMap → String → SceneMap
  | [], _ => []
  | (k0, v0) :: rest, k =>
      if k0 = k then mapDelete rest k else (k0, v0) :: mapDelete rest k

/-- Keys of a map, in insertion order. -/
def mapKeys (m : SceneMap) : List String :=
  m.map Prod.fst

/-- Values of a map, in insertion order (the iteration order of `Map.prototype.forEach`). -/
def mapValues (m : SceneMap) : List NavigationScene :=
  m.map Prod.snd

/-- The derived scene key of a route (line 95): the constant key piece followed by the route key. -/
def sceneKey (route : NavigationRoute) : String :=
  "scene_" ++ route.key

/-- Derived scene keys of a children sequence, in order. -/
def derivedKeys (children : List NavigationRoute) : List String :=
  children.map sceneKey

/-- First identity token strictly above every token of the incoming scene list: models the
fact that objects allocated during the call are distinct from all incoming scenes. -/
def freshBase (scenes : List NavigationScene) : Nat :=
  scenes.foldl (fun acc s => max acc (s.sceneId + 1)) 0

/-- The candidate scene built for `nextState.children[idx]` (lines 96-101). -/
def mkFreshScene (base idx : Nat) (route : NavigationRoute) : NavigationScene :=
  { sceneId := base + idx, index := idx, isStale := false, key := sceneKey route,
    route := route }

/-- The stale scene built for a removed route of `prevState.children[idx]` (lines 124-129). -/
def mkStaleScene (base idx : Nat) (route : NavigationRoute) : NavigationScene :=
  { sceneId := base + idx, index := idx, isStale := true, key := sceneKey route,
    route := route }

/-- Translation of the first `scenes.forEach` loop (lines 84-91): returns the pair
(staleScenes, prevScenes) after populating both maps. -/
def populateMaps : List NavigationScene → SceneMap × SceneMap → SceneMap × SceneMap
  | [], maps => maps
  | scene :: rest, (stale, prev) =>
      populateMaps rest
        (if scene.isStale then mapSet stale scene.key scene else stale,
         mapSet prev scene.key scene)

/-- Translation of the `nextState.children.forEach` loop (lines 93-115): threads the
`nextKeys` set, the stale map (revival deletes) and the fresh map; returns `none` when the
duplicate-sibling-key invariant is violated. -/
def buildFresh (base : Nat) :
    List NavigationRoute → Nat → List String → SceneMap → SceneMap →
      Option (SceneMap × SceneMap)
  | [], _, _, stale, fresh => some (stale, fresh)
  | route :: rest, idx, nextKeys, stale, fresh =>
      let key := sceneKey route
      if key ∈ nextKeys then none
      else
        buildFresh base rest (idx + 1) (key :: nextKeys)
          (if mapHas stale key then mapDelete stale key else stale)
          (mapSet fresh key (mkFreshScene base idx route))

/-- Translation of the `prevState.children.forEach` loop (lines 117-131): routes whose
derived key is absent from the fresh map are recorded as stale. -/
def addStale (base : Nat) (fresh : SceneMap) :
    List NavigationRoute → Nat → SceneMap → SceneMap
  | [], _, stale => stale
  | route :: rest, idx, stale =>
      let key := sceneKey route
      addStale base fresh rest (idx + 1)
        (if mapHas fresh key then stale else mapSet stale key (mkStaleScene base idx route))

/-- The map-building phase of `NavigationScenesReducer` (lines 80-131): produces the
`prevScenes`, `staleScenes` and `freshScenes` maps, or `none` on a duplicate sibling key. -/
def reducerCore (scenes : List NavigationScene) (nextState : NavigationState)
    (prevState : Option NavigationState) : Option (SceneMap × SceneMap × SceneMap) :=
  let base := freshBase scenes
  let maps := populateMaps scenes ([], [])
  match buildFresh base nextState.children 0 [] maps.1 [] with
  | none => none
  | some (stale1, fresh) =>
      let stale2 :=
        match prevState with
        | some prev => addStale (base + nextState.children.length) fresh prev.children 0 stale1
        | none => stale1
      some (maps.2, stale2, fresh)

/-- Translation of the `mergeScene` closure (lines 135-145): push the previous scene when it
is shallow-equal to the candidate, the candidate otherwise. -/
def mergeScene (prevScenes : SceneMap) (nextScenes : List NavigationScene)
    (nextScene : NavigationScene) : List NavigationScene :=
  let prevScene :=
    if mapHas prevScenes nextScene.key then mapGet? prevScenes nextScene.key else none
  match prevScene with
  | some p =>
      if areScenesShallowEqual p nextScene then nextScenes ++ [p] else nextScenes ++ [nextScene]
  | none => nextScenes ++ [nextScene]

/-- One step of the insertion sort modelling `Array.prototype.sort(compareScenes)`. -/
def insertScene (a : NavigationScene) : List NavigationScene → List NavigationScene
  | [] => [a]
  | b :: rest => if compareScenes a b < 0 then a :: b :: rest else b :: insertScene a rest

/-- Insertion sort by `compareScenes` (line 150). -/
def sortScenes : List NavigationScene → List NavigationScene
  | [] => []
  | a :: rest => insertScene a (sortScenes rest)

/-- Translation of `NavigationScenesReducer` (lines 71-151).  `none` models the fatal
`invariant` failure; the fast path (lines 76-78) compares the optional previous state with
the next state by object identity. -/
def NavigationScenesReducer (scenes : List NavigationScene) (nextState : NavigationState)
    (prevState : Option NavigationState) : Option (List NavigationScene) :=
  if prevState = some nextState then some scenes
  else
    match reducerCore scenes nextState prevState with
    | none => none
    | some (prevScenes, staleScenes, freshScenes) =>
        some (sortScenes
          (List.foldl (mergeScene prevScenes)
            (List.foldl (mergeScene prevScenes) [] (mapValues staleScenes))
            (mapValues freshScenes)))

/-- The scene that `mergeScene` pushes for a given candidate: the shallow-equal previous
scene when one exists, the candidate otherwise. -/
def resolveScene (prevScenes : SceneMap) (nextScene : NavigationScene) : NavigationScene :=
  match mapGet? prevScenes nextScene.key with
  | some p => if areScenesShallowEqual p nextScene then p else nextScene
  | none => nextScene

/-- Specification of the fresh map produced by a successful `buildFresh` pass: one candidate
entry per child route, in order. -/
def mkCandidates (base : Nat) : List NavigationRoute → Nat → SceneMap
  | [], _ => []
  | route :: rest, idx =>
      (sceneKey route, mkFreshScene base idx route) :: mkCandidates base rest (idx + 1)

/-! ### Association-list map lemmas -/

/-- Well-formedness of the reducer's maps: keys are pairwise distinct and every stored scene
is stored under its own `key`. -/
def mapWF (m : SceneMap) : Prop :=
  (mapKeys m).Nodup ∧ ∀ p ∈ m, (p.2).key = p.1

theorem mapWF_nil : mapWF [] := by
  constructor
  · simp [mapKeys]
  · intro p hp; simp at hp

theorem mapGet?_set (m : SceneMap) (k : String) (v : NavigationScene) (k' : String) :
    mapGet? (mapSet m k v) k' = if k = k' then some v else mapGet? m k' := by
  induction m with
  | nil => by_cases h : k = k' <;> simp [mapSet, mapGet?, h]
  | cons p rest ih =>
    obtain ⟨k0, v0⟩ := p
    by_cases h0 : k0 = k
    · subst h0
      by_cases h : k0 = k' <;> simp [mapSet, mapGet?, h]
    · by_cases h : k0 = k'
      · subst h
        have hne : ¬ k = k0 := fun hh => h0 hh.symm
        simp [mapSet, h0, mapGet?, hne]
      · simp [mapSet, h0, mapGet?, h, ih]

theorem mapGet?_delete (m : SceneMap) (k k' : String) :
    mapGet? (mapDelete m k) k' = if k = k' then none else mapGet? m k' := by
  induction m with
  | nil => by_cases h : k = k' <;> simp [mapDelete, mapGet?, h]
  | cons p rest ih =>
    obtain ⟨k0, v0⟩ := p
    by_cases h0 : k0 = k
    · subst h0
      by_cases h : k0 = k'
      · subst h
        simpa [mapDelete, mapGet?] using ih
      · simp [mapDelete, mapGet?, h, ih]
    · by_cases h : k0 = k'
      · subst h
        have hne : ¬ k = k0 := fun hh => h0 hh.symm
        simp [mapDelete, h0, mapGet?, hne]
      · simp [mapDelete, h0, mapGet?, h, ih]

theorem mapHas_iff_mem (m : SceneMap) (k : String) :
    mapHas m k = true ↔ k ∈ mapKeys m := by
  induction m with
  | nil => simp [mapHas, mapGet?, mapKeys]
  | cons p rest ih =>
    obtain ⟨k0, v0⟩ := p
    by_cases h : k0 = k
    · subst h; simp [mapHas, mapGet?, mapKeys]
    · simp [mapHas, mapGet?, mapKeys, h, Ne.symm h] at ih ⊢
      exact ih

theorem mapGet?_mem (m : SceneMap) (k : String) (v : NavigationScene)
    (h : mapGet? m k = some v) : (k, v) ∈ m := by
  induction m with
  | nil => simp [mapGet?] at h
  | cons p rest ih =>
    obtain ⟨k0, v0⟩ := p
    by_cases h0 : k0 = k
    · subst h0
      simp [mapGet?] at h
      simp [h]
    · simp [mapGet?, h0] at h
      simp [ih h]

theorem mem_mapGet? (m : SceneMap) (k : String) (v : NavigationScene)
    (hwf : (mapKeys m).Nodup) (h : (k, v) ∈ m) : mapGet? m k = some v := by
  induction m with
  | nil => simp at h
  | cons p rest ih =>
    obtain ⟨k0, v0⟩ := p
    have hwf' : k0 ∉ mapKeys rest ∧ (mapKeys rest).Nodup := by
      simpa [mapKeys] using hwf
    rcases List.mem_cons.mp h with heq | hmem
    · rw [Prod.mk.injEq] at heq
      simp [mapGet?, heq.1, heq.2]
    · have hk0 : k0 ≠ k := by
        intro hk0
        subst hk0
        exact hwf'.1 (List.mem_map.mpr ⟨(k0, v), hmem, rfl⟩)
      simp only [mapGet?, if_neg hk0]
      exact ih hwf'.2 hmem

theorem mapSet_not_mem (m : SceneMap) (k : String) (v : NavigationScene)
    (h : k ∉ mapKeys m) : mapSet m k v = m ++ [(k, v)] := by
  induction m with
  | nil => simp [mapSet]
  | cons p rest ih =>
    obtain ⟨k0, v0⟩ := p
    have h1 : k0 ≠ k := by
      intro hk; exact h (by simp [mapKeys, hk])
    have h2 : k ∉ mapKeys rest := by
      intro hk; exact h (by simp [mapKeys] at hk ⊢; exact Or.inr hk)
    simp [mapSet, h1, ih h2]

theorem mapKeys_set (m : SceneMap) (k : String) (v : NavigationScene) :
    mapKeys (mapSet m k v) = if k ∈ mapKeys m then mapKeys m else mapKeys m ++ [k] := by
  induction m with
  | nil => simp [mapSet, mapKeys]
  | cons p rest ih =>
    obtain ⟨k0, v0⟩ := p
    by_cases h0 : k0 = k
    · subst h0; simp [mapSet, mapKeys]
    · have hmem : (k ∈ mapKeys ((k0, v0) :: rest)) = (k ∈ mapKeys rest) := by
        simp [mapKeys, Ne.symm h0]
      by_cases h : k ∈ mapKeys rest
      · rw [hmem] at *
        simp only [mapSet, if_neg h0]
        simp only [mapKeys, List.map_cons] at ih ⊢
        rw [ih]
        simp only [mapKeys] at h
        simp [h, Ne.symm h0]
      · rw [hmem] at *
        simp only [mapSet, if_neg h0]
        simp only [mapKeys, List.map_cons] at ih ⊢
        rw [ih]
        simp only [mapKeys] at h
        simp [h, Ne.symm h0]

theorem mapWF_set (m : SceneMap) (k : String) (v : NavigationScene)
    (hwf : mapWF m) (hv : v.key = k) : mapWF (mapSet m k v) := by
  obtain ⟨hnd, hkeys⟩ := hwf
  constructor
  · rw [mapKeys_set]
    by_cases h : k ∈ mapKeys m
    · simpa [h]
    · simpa [h] using List.Nodup.append hnd (by simp) (by simp [List.disjoint_left, h])
  · intro p hp
    induction m with
    | nil => simp [mapSet] at hp; simp [hp, hv]
    | cons q rest ih =>
      obtain ⟨k0, v0⟩ := q
      by_cases h0 : k0 = k
      · subst h0
        simp [mapSet] at hp
        rcases hp with hp | hp
        · simp [hp, hv]
        · exact hkeys p (List.mem_cons_of_mem _ hp)
      · simp [mapSet, h0] at hp
        rcases hp with hp | hp
        · exact hkeys p (by simp [hp])
        · refine ih ?_ ?_ hp
          · simp [mapKeys] at hnd ⊢; exact hnd.2
          · intro q hq; exact hkeys q (List.mem_cons_of_mem _ hq)

theorem mapDelete_sublist (m : SceneMap) (k : String) : (mapDelete m k).Sublist m := by
  induction m with
  | nil => simp [mapDelete]
  | cons p rest ih =>
    obtain ⟨k0, v0⟩ := p
    by_cases h0 : k0 = k
    · simp only [mapDelete, if_pos h0]
      exact ih.cons _
    · simp only [mapDelete, if_neg h0]
      exact ih.cons₂ _

theorem mapWF_delete (m : SceneMap) (k : String) (hwf : mapWF m) : mapWF (mapDelete m k) := by
  obtain ⟨hnd, hkeys⟩ := hwf
  refine ⟨?_, fun p hp => hkeys p ((mapDelete_sublist m k).mem hp)⟩
  exact List.Nodup.sublist ((mapDelete_sublist m k).map Prod.fst) hnd

theorem mapWF_cons (k0 : String) (v0 : NavigationScene) (rest : SceneMap)
    (hwf : mapWF ((k0, v0) :: rest)) : mapWF rest := by
  constructor
  · have := hwf.1
    simp only [mapKeys, List.map_cons, List.nodup_cons] at this
    exact this.2
  · intro p hp
    exact hwf.2 p (List.mem_cons_of_mem _ hp)

theorem mapValues_set_not_mem (m : SceneMap) (k : String) (v : NavigationScene)
    (h : k ∉ mapKeys m) : mapValues (mapSet m k v) = mapValues m ++ [v] := by
  rw [mapSet_not_mem m k v h]
  simp [mapValues]

theorem mem_mapValues_set (m : SceneMap) (k : String) (v w : NavigationScene)
    (h : w ∈ mapValues (mapSet m k v)) : w = v ∨ w ∈ mapValues m := by
  induction m with
  | nil => simp [mapSet, mapValues] at h; exact Or.inl h
  | cons p rest ih =>
    obtain ⟨k0, v0⟩ := p
    by_cases h0 : k0 = k
    · subst h0
      simp [mapSet, mapValues] at h ⊢
      tauto
    · simp only [mapSet, if_neg h0, mapValues, List.map_cons, List.mem_cons] at h
      rcases h with h | h
      · simp [mapValues, h]
      · rcases ih h with h' | h'
        · exact Or.inl h'
        · right
          simp only [mapValues, List.map_cons, List.mem_cons]
          exact Or.inr h'

theorem mapValues_key_eq (m : SceneMap) (hwf : mapWF m) :
    (mapValues m).map NavigationScene.key = mapKeys m := by
  induction m with
  | nil => simp [mapValues, mapKeys]
  | cons p rest ih =>
    obtain ⟨k0, v0⟩ := p
    have h0 : v0.key = k0 := hwf.2 (k0, v0) (by simp)
    have hrest : mapWF rest := mapWF_cons k0 v0 rest hwf
    simp only [mapValues, mapKeys, List.map_cons, h0] at ih ⊢
    rw [ih hrest]

theorem countP_eq_zero_of_none (l : List NavigationScene) (p : NavigationScene → Bool)
    (h : ∀ s ∈ l, p s = false) : l.countP p = 0 := by
  rw [List.countP_eq_zero]
  intro a ha
  simp [h a ha]

/-- Counting values that satisfy a key-determined predicate: a well-formed map holds at most
one scene per key, so the count is decided by the lookup at that key. -/
theorem mapValues_countP (m : SceneMap) (k : String) (p : NavigationScene → Bool)
    (hwf : mapWF m) (hp : ∀ s, p s = true → s.key = k) :
    (mapValues m).countP p = (mapGet? m k).elim 0 (fun v => if p v then 1 else 0) := by
  induction m with
  | nil => simp [mapValues, mapGet?]
  | cons q rest ih =>
    obtain ⟨k0, v0⟩ := q
    have h0 : v0.key = k0 := hwf.2 (k0, v0) (by simp)
    have hnd : k0 ∉ mapKeys rest ∧ (mapKeys rest).Nodup := by
      simpa [mapKeys] using hwf.1
    have hrest : mapWF rest := mapWF_cons k0 v0 rest hwf
    by_cases hk : k0 = k
    · subst hk
      have hzero : (mapValues rest).countP p = 0 := by
        refine countP_eq_zero_of_none _ _ (fun s hs => ?_)
        by_contra hps
        have hps' : p s = true := by
          cases hp' : p s
          · exact absurd hp' hps
          · rfl
        have hkey : s.key = k0 := hp s hps'
        obtain ⟨⟨k1, v1⟩, hm, hv⟩ := List.mem_map.mp hs
        have : k1 = k0 := by
          have := hrest.2 (k1, v1) hm
          simp at this hv
          rw [← this, hv, hkey]
        exact hnd.1 (List.mem_map.mpr ⟨(k1, v1), hm, by simp [this]⟩)
      simp only [mapValues, List.map_cons, List.countP_cons, mapGet?, if_pos rfl]
      simp only [mapValues] at hzero
      rw [hzero]
      cases hpv : p v0 <;> simp [hpv]
    · have hpv : p v0 = false := by
        cases hp' : p v0
        · rfl
        · exact absurd (h0.symm.trans (hp v0 hp')) hk
      simp only [mapValues, List.map_cons, List.countP_cons, mapGet?, if_neg hk]
      simp only [mapValues] at ih
      rw [ih hrest]
      simp [hpv]

/-! ### Comparator lemmas -/

theorem charListLt_irrefl : ∀ l : List Char, charListLt l l = false
  | [] => rfl
  | a :: as => by simp [charListLt, lt_irrefl a, charListLt_irrefl as]

theorem charListLt_asymm : ∀ x y : List Char,
    charListLt x y = true → charListLt y x = false
  | [], [], h => by simp [charListLt] at h
  | [], _ :: _, _ => rfl
  | _ :: _, [], h => by simp [charListLt] at h
  | a :: as, b :: bs, h => by
    by_cases hab : a < b
    · simp [charListLt, hab, lt_asymm hab]
    · by_cases hba : b < a
      · simp [charListLt, hab, hba] at h
      · simp [charListLt, hab, hba] at h ⊢
        exact charListLt_asymm as bs h

theorem charListLt_trans : ∀ x y z : List Char,
    charListLt x y = true → charListLt y z = true → charListLt x z = true
  | [], [], _, h, _ => by simp [charListLt] at h
  | [], _ :: _, [], _, h => by simp [charListLt] at h
  | [], _ :: _, _ :: _, _, _ => rfl
  | _ :: _, [], _, h, _ => by simp [charListLt] at h
  | _ :: _, _ :: _, [], _, h => by simp [charListLt] at h
  | a :: as, b :: bs, c :: cs, h1, h2 => by
    by_cases hab : a < b
    · by_cases hbc : b < c
      · simp [charListLt, lt_trans hab hbc]
      · by_cases hcb : c < b
        · simp [charListLt, hbc, hcb] at h2
        · have hbc' : b = c := le_antisymm (not_lt.mp hcb) (not_lt.mp hbc)
          subst hbc'
          simp [charListLt, hab]
    · by_cases hba : b < a
      · simp [charListLt, hab, hba] at h1
      · have hab' : a = b := le_antisymm (not_lt.mp hba) (not_lt.mp hab)
        subst hab'
        by_cases hac : a < c
        · simp [charListLt, hac]
        · by_cases hca : c < a
          · simp [charListLt, hac, hca] at h2
          · simp [charListLt, hab, hac, hca] at h1 h2 ⊢
            exact charListLt_trans as bs cs h1 h2

theorem charListLt_connex : ∀ x y : List Char,
    charListLt x y = false → charListLt y x = false → x = y
  | [], [], _, _ => rfl
  | [], _ :: _, h, _ => by simp [charListLt] at h
  | _ :: _, [], _, h => by simp [charListLt] at h
  | a :: as, b :: bs, h1, h2 => by
    by_cases hab : a < b
    · simp [charListLt, hab] at h1
    · by_cases hba : b < a
      · simp [charListLt, hba] at h2
      · have hab' : a = b := le_antisymm (not_lt.mp hba) (not_lt.mp hab)
        subst hab'
        simp [charListLt, lt_irrefl a] at h1 h2
        simp [charListLt_connex as bs h1 h2]

theorem stringGt_self (k : String) : stringGt k k = false :=
  charListLt_irrefl k.data

theorem stringGt_asymm (a b : String) (h : stringGt a b = true) : stringGt b a = false :=
  charListLt_asymm b.data a.data h

theorem stringGt_connex (a b : String) (h1 : stringGt a b = false)
    (h2 : stringGt b a = false) : a = b := by
  have hdata : b.data = a.data := charListLt_connex b.data a.data h1 h2
  cases a; cases b
  exact congrArg String.mk hdata.symm

theorem compareKey_self (k : String) : compareKey k k = -1 := by
  simp [compareKey, stringGt_self]

theorem compareKey_eq (a b : String) :
    compareKey a b =
      if b.length < a.length then 1
      else if a.length < b.length then -1
      else if stringGt a b then 1 else -1 := by
  unfold compareKey
  rcases Nat.lt_trichotomy a.length b.length with h | h | h
  · rw [if_neg (by omega), if_pos (by omega), if_neg (by omega), if_pos h]
  · rw [if_neg (show ¬ ((a.length : Int) - b.length > 0) by omega),
        if_neg (show ¬ ((a.length : Int) - b.length < 0) by omega),
        if_neg (show ¬ b.length < a.length by omega),
        if_neg (show ¬ a.length < b.length by omega)]
  · rw [if_pos (show (a.length : Int) - b.length > 0 by omega), if_pos h]

theorem compareKey_values (a b : String) : compareKey a b = 1 ∨ compareKey a b = -1 := by
  rw [compareKey_eq]
  split_ifs <;> simp

theorem compareKey_antisymm (a b : String) (h : compareKey a b = 1) :
    compareKey b a = -1 := by
  rw [compareKey_eq] at h ⊢
  by_cases h1 : b.length < a.length
  · rw [if_neg (by omega), if_pos h1]
  · by_cases h2 : a.length < b.length
    · rw [if_neg h1, if_pos h2] at h
      exact absurd h (by decide)
    · rw [if_neg h1, if_neg h2] at h
      cases hg : stringGt a b
      · rw [hg] at h
        exact absurd h (by decide)
      · rw [if_neg h2, if_neg h1, stringGt_asymm a b hg]
        simp

theorem compareKey_neg_one_iff (a b : String) :
    compareKey a b = -1 ↔
      a.length < b.length ∨ (a.length = b.length ∧ stringGt a b = false) := by
  rw [compareKey_eq]
  by_cases h1 : b.length < a.length
  · rw [if_pos h1]
    constructor
    · intro h; exact absurd h (by decide)
    · intro h; rcases h with h | ⟨h, _⟩ <;> omega
  · rw [if_neg h1]
    by_cases h2 : a.length < b.length
    · rw [if_pos h2]; simp [h2]
    · rw [if_neg h2]
      have hlen : a.length = b.length := by omega
      cases hg : stringGt a b
      · simp [hlen]
      · simp [h2, hlen]

theorem compareKey_neg_trans (a b c : String) (h1 : compareKey a b = -1)
    (h2 : compareKey b c = -1) : compareKey a c = -1 := by
  rw [compareKey_neg_one_iff] at h1 h2 ⊢
  rcases h1 with h1 | ⟨h1l, h1g⟩
  · rcases h2 with h2 | ⟨h2l, _⟩
    · exact Or.inl (lt_trans h1 h2)
    · exact Or.inl (h2l ▸ h1)
  · rcases h2 with h2 | ⟨h2l, h2g⟩
    · exact Or.inl (h1l ▸ h2)
    · refine Or.inr ⟨h1l.trans h2l, ?_⟩
      unfold stringGt at h1g h2g ⊢
      cases hac : charListLt c.data a.data
      · rfl
      · exfalso
        by_cases hab : charListLt a.data b.data = true
        · have := charListLt_trans c.data a.data b.data hac hab
          simp_all
        · have hEq : a.data = b.data :=
            charListLt_connex a.data b.data (by simpa using hab) h1g
          rw [← hEq] at h2g
          simp_all

theorem compareScenes_values (a b : NavigationScene) :
    compareScenes a b = 1 ∨ compareScenes a b = -1 := by
  unfold compareScenes
  split_ifs <;> simp [compareKey_values]

theorem compareScenes_ne_zero (a b : NavigationScene) : compareScenes a b ≠ 0 := by
  rcases compareScenes_values a b with h | h <;> simp [h]

theorem compareScenes_antisymm (a b : NavigationScene) (h : compareScenes a b = 1) :
    compareScenes b a = -1 := by
  unfold compareScenes at h ⊢
  split_ifs at h ⊢ with h1 h2 h3 h4 <;> try omega
  exact compareKey_antisymm a.key b.key h

theorem compareScenes_total (a b : NavigationScene) :
    compareScenes a b < 0 ∨ compareScenes b a < 0 := by
  rcases compareScenes_values a b with h | h
  · right; rw [compareScenes_antisymm a b h]; omega
  · left; omega

theorem compareScenes_neg_trans (a b c : NavigationScene) (h1 : compareScenes a b < 0)
    (h2 : compareScenes b c < 0) : compareScenes a c < 0 := by
  have h1' : compareScenes a b = -1 := by
    rcases compareScenes_values a b with h | h <;> omega
  have h2' : compareScenes b c = -1 := by
    rcases compareScenes_values b c with h | h <;> omega
  suffices h : compareScenes a c = -1 by omega
  unfold compareScenes at h1' h2' ⊢
  split_ifs at h1' h2' ⊢ with h3 h4 h5 h6 h7 h8 <;> try omega
  all_goals try (exfalso; omega)
  have hia : a.index = b.index := by omega
  have hib : b.index = c.index := by omega
  exact compareKey_neg_trans a.key b.key c.key h1' h2'

/-! ### Sort lemmas -/

theorem insertScene_perm (a : NavigationScene) (l : List NavigationScene) :
    (insertScene a l).Perm (a :: l) := by
  induction l with
  | nil => simp [insertScene]
  | cons b rest ih =>
    by_cases h : compareScenes a b < 0
    · simp [insertScene, h]
    · simp only [insertScene, if_neg h]
      exact (ih.cons b).trans (List.Perm.swap a b rest)

theorem sortScenes_perm (l : List NavigationScene) : (sortScenes l).Perm l := by
  induction l with
  | nil => simp [sortScenes]
  | cons a rest ih =>
    exact (insertScene_perm a (sortScenes rest)).trans (ih.cons a)

theorem mem_insertScene (a x : NavigationScene) (l : List NavigationScene)
    (h : x ∈ insertScene a l) : x = a ∨ x ∈ l := by
  have := (insertScene_perm a l).mem_iff.mp h
  simpa using this

theorem insertScene_pairwise (a : NavigationScene) (l : List NavigationScene)
    (h : l.Pairwise (fun x y => compareScenes x y < 0)) :
    (insertScene a l).Pairwise (fun x y => compareScenes x y < 0) := by
  induction l with
  | nil => simp [insertScene]
  | cons b rest ih =>
    rcases List.pairwise_cons.mp h with ⟨hb, hrest⟩
    by_cases hab : compareScenes a b < 0
    · simp only [insertScene, if_pos hab]
      refine List.pairwise_cons.mpr ⟨?_, h⟩
      intro y hy
      rcases List.mem_cons.mp hy with rfl | hy
      · exact hab
      · exact compareScenes_neg_trans a b y hab (hb y hy)
    · simp only [insertScene, if_neg hab]
      refine List.pairwise_cons.mpr ⟨?_, ih hrest⟩
      intro y hy
      rcases mem_insertScene a y rest hy with rfl | hy
      · rcases compareScenes_total b y with h' | h'
        · exact h'
        · exact absurd h' (by omega)
      · exact hb y hy

theorem sortScenes_pairwise (l : List NavigationScene) :
    (sortScenes l).Pairwise (fun x y => compareScenes x y < 0) := by
  induction l with
  | nil => simp [sortScenes]
  | cons a rest ih => exact insertScene_pairwise a (sortScenes rest) ih

/-! ### Merge lemmas -/

theorem mergeScene_eq (prevScenes : SceneMap) (acc : List NavigationScene)
    (s : NavigationScene) :
    mergeScene prevScenes acc s = acc ++ [resolveScene prevScenes s] := by
  unfold mergeScene resolveScene
  cases h : mapGet? prevScenes s.key
  · simp [mapHas, h]
  · simp only [mapHas, h, Option.isSome_some, if_true]
    split_ifs <;> rfl

theorem foldl_mergeScene (prevScenes : SceneMap) (acc : List NavigationScene)
    (l : List NavigationScene) :
    List.foldl (mergeScene prevScenes) acc l = acc ++ l.map (resolveScene prevScenes) := by
  induction l generalizing acc with
  | nil => simp
  | cons s rest ih =>
    simp only [List.foldl_cons, List.map_cons]
    rw [mergeScene_eq, ih]
    simp

theorem areScenesShallowEqual_refl (s : NavigationScene) :
    areScenesShallowEqual s s = true := by
  simp [areScenesShallowEqual]

theorem areScenesShallowEqual_fields (p s : NavigationScene)
    (h : areScenesShallowEqual p s = true) :
    p.key = s.key ∧ p.index = s.index ∧ p.isStale = s.isStale ∧ p.route = s.route := by
  simp only [areScenesShallowEqual, Bool.and_eq_true, beq_iff_eq] at h
  exact ⟨h.1.1.1.1, h.1.1.1.2, h.1.1.2, h.1.2⟩

theorem resolveScene_fields (prevScenes : SceneMap) (s : NavigationScene) :
    (resolveScene prevScenes s).key = s.key ∧
    (resolveScene prevScenes s).index = s.index ∧
    (resolveScene prevScenes s).isStale = s.isStale ∧
    (resolveScene prevScenes s).route = s.route := by
  unfold resolveScene
  cases h : mapGet? prevScenes s.key with
  | none => simp
  | some p =>
    by_cases he : areScenesShallowEqual p s = true
    · simp only [he, if_true]
      exact areScenesShallowEqual_fields p s he
    · simp [he]

/-! ### populateMaps lemmas -/

theorem derivedKeys_nil : derivedKeys [] = [] := rfl

theorem derivedKeys_cons (r : NavigationRoute) (rest : List NavigationRoute) :
    derivedKeys (r :: rest) = sceneKey r :: derivedKeys rest := rfl

theorem mapGet?_eq_none_of_not_has (m : SceneMap) (k : String)
    (h : mapHas m k = false) : mapGet? m k = none := by
  cases hg : mapGet? m k with
  | none => rfl
  | some v => simp [mapHas, hg] at h

theorem populateMaps_not_mem (scenes : List NavigationScene) (st pr : SceneMap) (k : String)
    (h : ∀ s ∈ scenes, s.key ≠ k) :
    mapGet? (populateMaps scenes (st, pr)).1 k = mapGet? st k ∧
    mapGet? (populateMaps scenes (st, pr)).2 k = mapGet? pr k := by
  induction scenes generalizing st pr with
  | nil => simp [populateMaps]
  | cons s rest ih =>
    have hs : s.key ≠ k := h s (by simp)
    have hrest : ∀ x ∈ rest, x.key ≠ k := fun x hx => h x (by simp [hx])
    simp only [populateMaps]
    obtain ⟨ih1, ih2⟩ := ih _ _ hrest
    constructor
    · rw [ih1]
      by_cases hst : s.isStale <;> simp [hst, mapGet?_set, hs]
    · rw [ih2]
      simp [mapGet?_set, hs]

theorem populateMaps_prev_get (scenes : List NavigationScene) (st pr : SceneMap)
    (p : NavigationScene) (hnd : (scenes.map NavigationScene.key).Nodup)
    (hp : p ∈ scenes) :
    mapGet? (populateMaps scenes (st, pr)).2 p.key = some p := by
  induction scenes generalizing st pr with
  | nil => simp at hp
  | cons s rest ih =>
    simp only [List.map_cons, List.nodup_cons] at hnd
    rcases List.mem_cons.mp hp with rfl | hmem
    · have hrest : ∀ x ∈ rest, x.key ≠ p.key := by
        intro x hx he
        exact hnd.1 (he ▸ List.mem_map_of_mem NavigationScene.key hx)
      simp only [populateMaps]
      rw [(populateMaps_not_mem rest _ _ p.key hrest).2]
      simp [mapGet?_set]
    · simp only [populateMaps]
      exact ih _ _ hnd.2 hmem

theorem populateMaps_stale_get (scenes : List NavigationScene) (st pr : SceneMap)
    (p : NavigationScene) (hnd : (scenes.map NavigationScene.key).Nodup)
    (hp : p ∈ scenes) (hstale : p.isStale = true) :
    mapGet? (populateMaps scenes (st, pr)).1 p.key = some p := by
  induction scenes generalizing st pr with
  | nil => simp at hp
  | cons s rest ih =>
    simp only [List.map_cons, List.nodup_cons] at hnd
    rcases List.mem_cons.mp hp with rfl | hmem
    · have hrest : ∀ x ∈ rest, x.key ≠ p.key := by
        intro x hx he
        exact hnd.1 (he ▸ List.mem_map_of_mem NavigationScene.key hx)
      simp only [populateMaps]
      rw [(populateMaps_not_mem rest _ _ p.key hrest).1]
      simp [hstale, mapGet?_set]
    · simp only [populateMaps]
      exact ih _ _ hnd.2 hmem

theorem populateMaps_WF (scenes : List NavigationScene) (st pr : SceneMap)
    (hst : mapWF st) (hpr : mapWF pr) :
    mapWF (populateMaps scenes (st, pr)).1 ∧ mapWF (populateMaps scenes (st, pr)).2 := by
  induction scenes generalizing st pr with
  | nil => exact ⟨hst, hpr⟩
  | cons s rest ih =>
    simp only [populateMaps]
    by_cases h : s.isStale
    · simp only [h, if_true]
      exact ih _ _ (mapWF_set st s.key s hst rfl) (mapWF_set pr s.key s hpr rfl)
    · simp only [h, if_false]
      exact ih _ _ hst (mapWF_set pr s.key s hpr rfl)

theorem populateMaps_stale_values (scenes : List NavigationScene) (st pr : SceneMap)
    (h : ∀ v ∈ mapValues st, v.isStale = true) :
    ∀ v ∈ mapValues (populateMaps scenes (st, pr)).1, v.isStale = true := by
  induction scenes generalizing st pr with
  | nil => exact h
  | cons s rest ih =>
    simp only [populateMaps]
    by_cases hs : s.isStale
    · simp only [hs, if_true]
      refine ih _ _ ?_
      intro v hv
      rcases mem_mapValues_set st s.key s v hv with rfl | hv'
      · exact hs
      · exact h v hv'
    · simp only [hs, if_false]
      exact ih _ _ h

/-! ### buildFresh lemmas -/

theorem buildFresh_clash (base : Nat) :
    ∀ (children : List NavigationRoute) (idx : Nat) (keys : List String)
      (stale fresh : SceneMap) (k : String), k ∈ keys → k ∈ derivedKeys children →
      buildFresh base children idx keys stale fresh = none
  | [], _, _, _, _, k, _, hd => by simp [derivedKeys_nil] at hd
  | route :: rest, idx, keys, stale, fresh, k, hk, hd => by
    simp only [buildFresh]
    by_cases h : sceneKey route ∈ keys
    · simp [h]
    · rw [if_neg h]
      rcases List.mem_cons.mp (derivedKeys_cons route rest ▸ hd) with rfl | hd'
      · exact absurd hk h
      · exact buildFresh_clash base rest (idx + 1) _ _ _ k (by simp [hk]) hd'

theorem buildFresh_dup (base : Nat) :
    ∀ (children : List NavigationRoute) (idx : Nat) (keys : List String)
      (stale fresh : SceneMap), ¬ (derivedKeys children).Nodup →
      buildFresh base children idx keys stale fresh = none
  | [], _, _, _, _, h => absurd (by simp [derivedKeys_nil]) h
  | route :: rest, idx, keys, stale, fresh, h => by
    simp only [buildFresh]
    by_cases hk : sceneKey route ∈ keys
    · simp [hk]
    · rw [if_neg hk]
      rw [derivedKeys_cons, List.nodup_cons] at h
      by_cases hmem : sceneKey route ∈ derivedKeys rest
      · exact buildFresh_clash base rest (idx + 1) _ _ _ (sceneKey route) (by simp) hmem
      · exact buildFresh_dup base rest (idx + 1) _ _ _ (fun hn => h ⟨hmem, hn⟩)

theorem buildFresh_isSome (base : Nat) :
    ∀ (children : List NavigationRoute) (idx : Nat) (keys : List String)
      (stale fresh : SceneMap),
      (derivedKeys children).Nodup → (∀ k ∈ derivedKeys children, k ∉ keys) →
      ∃ stOut frOut, buildFresh base children idx keys stale fresh = some (stOut, frOut)
  | [], idx, keys, stale, fresh, _, _ => ⟨stale, fresh, rfl⟩
  | route :: rest, idx, keys, stale, fresh, hnd, hdisj => by
    simp only [buildFresh]
    rw [derivedKeys_cons, List.nodup_cons] at hnd
    have hk : sceneKey route ∉ keys := hdisj _ (by simp [derivedKeys_cons])
    rw [if_neg hk]
    refine buildFresh_isSome base rest (idx + 1) _ _ _ hnd.2 ?_
    intro k hkd
    simp only [List.mem_cons]
    push_neg
    constructor
    · intro he
      exact hnd.1 (he ▸ hkd)
    · exact hdisj k (by simp [derivedKeys_cons, hkd])

theorem mkCandidates_keys (base : Nat) :
    ∀ (children : List NavigationRoute) (idx : Nat),
      mapKeys (mkCandidates base children idx) = derivedKeys children
  | [], _ => rfl
  | route :: rest, idx => by
    simp only [mkCandidates, mapKeys, List.map_cons, derivedKeys_cons]
    rw [← mapKeys, mkCandidates_keys base rest (idx + 1)]

theorem mkCandidates_stored_keys (base : Nat) :
    ∀ (children : List NavigationRoute) (idx : Nat) (p : String × NavigationScene),
      p ∈ mkCandidates base children idx → (p.2).key = p.1
  | [], _, p, hp => by simp [mkCandidates] at hp
  | route :: rest, idx, p, hp => by
    rcases List.mem_cons.mp hp with rfl | hp'
    · simp [mkFreshScene]
    · exact mkCandidates_stored_keys base rest (idx + 1) p hp'

theorem mkCandidates_WF (base : Nat) (children : List NavigationRoute) (idx : Nat)
    (hnd : (derivedKeys children).Nodup) : mapWF (mkCandidates base children idx) := by
  constructor
  · rw [mkCandidates_keys]
    exact hnd
  · exact fun p hp => mkCandidates_stored_keys base children idx p hp

theorem mkCandidates_get (base : Nat) :
    ∀ (children : List NavigationRoute) (idx j : Nat) (r : NavigationRoute),
      (derivedKeys children).Nodup → children[j]? = some r →
      mapGet? (mkCandidates base children idx) (sceneKey r) =
        some (mkFreshScene base (idx + j) r)
  | [], _, j, r, _, hj => by simp at hj
  | route :: rest, idx, j, r, hnd, hj => by
    rw [derivedKeys_cons, List.nodup_cons] at hnd
    cases j with
    | zero =>
      simp only [List.getElem?_cons_zero, Option.some.injEq] at hj
      subst hj
      simp [mkCandidates, mapGet?]
    | succ j' =>
      simp only [List.getElem?_cons_succ] at hj
      have hne : sceneKey route ≠ sceneKey r := by
        intro he
        have : sceneKey r ∈ derivedKeys rest := by
          have hmem : r ∈ rest := by
            obtain ⟨hlt, hr⟩ := List.getElem?_eq_some_iff.mp hj
            exact hr ▸ List.getElem_mem hlt
          exact List.mem_map_of_mem sceneKey hmem
        exact hnd.1 (he ▸ this)
      simp only [mkCandidates, mapGet?, if_neg hne]
      rw [mkCandidates_get base rest (idx + 1) j' r hnd.2 hj]
      congr 1
      simp [mkFreshScene]
      omega

theorem mem_mkCandidates (base : Nat) :
    ∀ (children : List NavigationRoute) (idx : Nat) (c : NavigationScene),
      c ∈ mapValues (mkCandidates base children idx) →
      ∃ j r, children[j]? = some r ∧ c = mkFreshScene base (idx + j) r
  | [], _, c, hc => by simp [mkCandidates, mapValues] at hc
  | route :: rest, idx, c, hc => by
    simp only [mkCandidates, mapValues, List.map_cons, List.mem_cons] at hc
    rcases hc with rfl | hc'
    · exact ⟨0, route, by simp⟩
    · obtain ⟨j, r, hj, hc⟩ := mem_mkCandidates base rest (idx + 1) c hc'
      refine ⟨j + 1, r, by simpa using hj, ?_⟩
      rw [hc]
      simp [mkFreshScene]
      omega

theorem mkCandidates_countP_route (base : Nat) (r : NavigationRoute) :
    ∀ (children : List NavigationRoute) (idx : Nat),
      (mapValues (mkCandidates base children idx)).countP
        (fun s => !s.isStale && s.route == r) = children.count r
  | [], _ => by simp [mkCandidates, mapValues]
  | route :: rest, idx => by
    simp only [mkCandidates, mapValues, List.map_cons, List.countP_cons, List.count_cons]
    rw [← mapValues, mkCandidates_countP_route base r rest (idx + 1)]
    by_cases h : route = r
    · simp [mkFreshScene, h]
    · simp [mkFreshScene, h, Ne.symm h]

/-- What a successful `buildFresh` pass produces: the fresh map extends the accumulator by
the candidate list, and the stale map is the accumulator restricted to keys outside the
derived keys of the processed children. -/
theorem buildFresh_spec (base : Nat) :
    ∀ (children : List NavigationRoute) (idx : Nat) (keys : List String)
      (stale fresh stOut frOut : SceneMap),
      buildFresh base children idx keys stale fresh = some (stOut, frOut) →
      (∀ k ∈ mapKeys fresh, k ∈ keys) →
      frOut = fresh ++ mkCandidates base children idx ∧
      ∀ k, mapGet? stOut k =
        if k ∈ derivedKeys children then none else mapGet? stale k
  | [], idx, keys, stale, fresh, stOut, frOut, h, _ => by
    simp only [buildFresh, Option.some.injEq, Prod.mk.injEq] at h
    refine ⟨by rw [← h.2, mkCandidates]; simp, fun k => ?_⟩
    rw [← h.1]
    simp [derivedKeys_nil]
  | route :: rest, idx, keys, stale, fresh, stOut, frOut, h, hsub => by
    simp only [buildFresh] at h
    by_cases hk : sceneKey route ∈ keys
    · simp [hk] at h
    · rw [if_neg hk] at h
      have hfk : sceneKey route ∉ mapKeys fresh := fun hm => hk (hsub _ hm)
      have hsub' : ∀ k ∈ mapKeys (mapSet fresh (sceneKey route) (mkFreshScene base idx route)),
          k ∈ sceneKey route :: keys := by
        intro k hm
        rw [mapKeys_set, if_neg hfk] at hm
        rcases List.mem_append.mp hm with hm | hm
        · exact List.mem_cons_of_mem _ (hsub k hm)
        · simp at hm
          simp [hm]
      obtain ⟨h1, h2⟩ := buildFresh_spec base rest (idx + 1) _ _ _ stOut frOut h hsub'
      constructor
      · rw [h1, mapSet_not_mem fresh _ _ hfk, mkCandidates]
        conv_rhs => rw [List.append_cons]
      · intro k
        rw [h2 k]
        by_cases hmem : k ∈ derivedKeys rest
        · have hcm : k ∈ derivedKeys (route :: rest) := by
            simp [derivedKeys_cons, hmem]
          rw [if_pos hmem, if_pos hcm]
        · rw [if_neg hmem]
          by_cases hke : k = sceneKey route
          · subst hke
            have hcm : sceneKey route ∈ derivedKeys (route :: rest) := by
              simp [derivedKeys_cons]
            rw [if_pos hcm]
            by_cases hh : mapHas stale (sceneKey route) = true
            · rw [if_pos hh, mapGet?_delete, if_pos rfl]
            · rw [if_neg hh]
              exact mapGet?_eq_none_of_not_has stale _ (by simpa using hh)
          · have hcm : k ∉ derivedKeys (route :: rest) := by
              simp [derivedKeys_cons, hke, hmem]
            rw [if_neg hcm]
            by_cases hh : mapHas stale (sceneKey route) = true
            · rw [if_pos hh, mapGet?_delete, if_neg (fun he => hke he.symm)]
            · rw [if_neg hh]

/-! ### addStale lemmas -/

theorem addStale_not_mem (base : Nat) (fresh : SceneMap) :
    ∀ (children : List NavigationRoute) (idx : Nat) (stale : SceneMap) (k : String),
      k ∉ derivedKeys children →
      mapGet? (addStale base fresh children idx stale) k = mapGet? stale k
  | [], _, _, _, _ => rfl
  | route :: rest, idx, stale, k, hk => by
    have hk1 : sceneKey route ≠ k := by
      intro he
      exact hk (by simp [derivedKeys_cons, he])
    have hk2 : k ∉ derivedKeys rest := fun hm => hk (by simp [derivedKeys_cons, hm])
    simp only [addStale]
    rw [addStale_not_mem base fresh rest (idx + 1) _ k hk2]
    by_cases hh : mapHas fresh (sceneKey route) = true
    · rw [if_pos hh]
    · rw [if_neg hh, mapGet?_set, if_neg hk1]

theorem addStale_fresh_mem (base : Nat) (fresh : SceneMap) :
    ∀ (children : List NavigationRoute) (idx : Nat) (stale : SceneMap) (k : String),
      mapHas fresh k = true →
      mapGet? (addStale base fresh children idx stale) k = mapGet? stale k
  | [], _, _, _, _ => rfl
  | route :: rest, idx, stale, k, hk => by
    simp only [addStale]
    rw [addStale_fresh_mem base fresh rest (idx + 1) _ k hk]
    by_cases hh : mapHas fresh (sceneKey route) = true
    · rw [if_pos hh]
    · rw [if_neg hh, mapGet?_set, if_neg ?_]
      intro he
      subst he
      exact hh hk

theorem addStale_get (base : Nat) (fresh : SceneMap) :
    ∀ (children : List NavigationRoute) (idx j : Nat) (stale : SceneMap)
      (r : NavigationRoute),
      (derivedKeys children).Nodup → children[j]? = some r →
      mapHas fresh (sceneKey r) = false →
      mapGet? (addStale base fresh children idx stale) (sceneKey r) =
        some (mkStaleScene base (idx + j) r)
  | [], _, j, _, r, _, hj, _ => by simp at hj
  | route :: rest, idx, j, stale, r, hnd, hj, hfr => by
    rw [derivedKeys_cons, List.nodup_cons] at hnd
    cases j with
    | zero =>
      simp only [List.getElem?_cons_zero, Option.some.injEq] at hj
      subst hj
      simp only [addStale]
      rw [addStale_not_mem base fresh rest (idx + 1) _ _ hnd.1]
      rw [if_neg (by simp [hfr]), mapGet?_set, if_pos rfl, Nat.add_zero]
    | succ j' =>
      simp only [List.getElem?_cons_succ] at hj
      simp only [addStale]
      rw [addStale_get base fresh rest (idx + 1) j' _ r hnd.2 hj hfr]
      congr 1
      simp [mkStaleScene]
      omega

theorem addStale_WF (base : Nat) (fresh : SceneMap) :
    ∀ (children : List NavigationRoute) (idx : Nat) (stale : SceneMap),
      mapWF stale → mapWF (addStale base fresh children idx stale)
  | [], _, _, h => h
  | route :: rest, idx, stale, h => by
    simp only [addStale]
    refine addStale_WF base fresh rest (idx + 1) _ ?_
    by_cases hh : mapHas fresh (sceneKey route) = true
    · rw [if_pos hh]; exact h
    · rw [if_neg hh]
      exact mapWF_set stale _ _ h rfl

theorem addStale_stale_values (base : Nat) (fresh : SceneMap) :
    ∀ (children : List NavigationRoute) (idx : Nat) (stale : SceneMap),
      (∀ v ∈ mapValues stale, v.isStale = true) →
      ∀ v ∈ mapValues (addStale base fresh children idx stale), v.isStale = true
  | [], _, _, h => h
  | route :: rest, idx, stale, h => by
    simp only [addStale]
    refine addStale_stale_values base fresh rest (idx + 1) _ ?_
    by_cases hh : mapHas fresh (sceneKey route) = true
    · rw [if_pos hh]; exact h
    · rw [if_neg hh]
      intro v hv
      rcases mem_mapValues_set stale _ _ v hv with rfl | hv'
      · rfl
      · exact h v hv'

/-! ### Reducer assembly lemmas -/

theorem string_data_inj (x y : String) (h : x.data = y.data) : x = y := by
  cases x
  cases y
  exact congrArg String.mk h

theorem sceneKey_inj : Function.Injective (fun k : String => "scene_" ++ k) := by
  intro a b h
  have hd : ("scene_" ++ a).data = ("scene_" ++ b).data := congrArg String.data h
  rw [String.data_append, String.data_append] at hd
  exact string_data_inj a b (List.append_cancel_left hd)

theorem derivedKeys_nodup (children : List NavigationRoute)
    (h : (children.map NavigationRoute.key).Nodup) : (derivedKeys children).Nodup := by
  have he : derivedKeys children =
      (children.map NavigationRoute.key).map (fun k => "scene_" ++ k) := by
    rw [List.map_map]
    rfl
  rw [he]
  exact h.map sceneKey_inj

theorem buildFresh_stale_WF (base : Nat) :
    ∀ (children : List NavigationRoute) (idx : Nat) (keys : List String)
      (stale fresh stOut frOut : SceneMap),
      buildFresh base children idx keys stale fresh = some (stOut, frOut) →
      mapWF stale → mapWF stOut
  | [], _, _, stale, fresh, stOut, frOut, h, hwf => by
    simp only [buildFresh, Option.some.injEq, Prod.mk.injEq] at h
    exact h.1 ▸ hwf
  | route :: rest, idx, keys, stale, fresh, stOut, frOut, h, hwf => by
    simp only [buildFresh] at h
    by_cases hk : sceneKey route ∈ keys
    · simp [hk] at h
    · rw [if_neg hk] at h
      refine buildFresh_stale_WF base rest (idx + 1) _ _ _ stOut frOut h ?_
      by_cases hh : mapHas stale (sceneKey route) = true
      · rw [if_pos hh]
        exact mapWF_delete stale _ hwf
      · rw [if_neg hh]
        exact hwf

theorem buildFresh_stale_values (base : Nat) :
    ∀ (children : List NavigationRoute) (idx : Nat) (keys : List String)
      (stale fresh stOut frOut : SceneMap),
      buildFresh base children idx keys stale fresh = some (stOut, frOut) →
      (∀ v ∈ mapValues stale, v.isStale = true) →
      ∀ v ∈ mapValues stOut, v.isStale = true
  | [], _, _, stale, fresh, stOut, frOut, h, hv => by
    simp only [buildFresh, Option.some.injEq, Prod.mk.injEq] at h
    exact h.1 ▸ hv
  | route :: rest, idx, keys, stale, fresh, stOut, frOut, h, hv => by
    simp only [buildFresh] at h
    by_cases hk : sceneKey route ∈ keys
    · simp [hk] at h
    · rw [if_neg hk] at h
      refine buildFresh_stale_values base rest (idx + 1) _ _ _ stOut frOut h ?_
      by_cases hh : mapHas stale (sceneKey route) = true
      · rw [if_pos hh]
        intro v hvm
        refine hv v ?_
        obtain ⟨p, hp, hpv⟩ := List.mem_map.mp hvm
        exact hpv ▸ List.mem_map_of_mem Prod.snd ((mapDelete_sublist stale _).mem hp)
      · rw [if_neg hh]
        exact hv

/-- Full characterization of a successful `reducerCore` run: the previous-scene map comes
from `populateMaps`, the fresh map is the candidate list, and the stale map is described
pointwise. -/
theorem reducerCore_full (scenes : List NavigationScene) (next : NavigationState)
    (prev : Option NavigationState)
    (hnodup : (derivedKeys next.children).Nodup) :
    ∃ stale2 : SceneMap,
      reducerCore scenes next prev =
        some ((populateMaps scenes ([], [])).2, stale2,
          mkCandidates (freshBase scenes) next.children 0) ∧
      mapWF stale2 ∧
      (∀ v ∈ mapValues stale2, v.isStale = true) ∧
      (∀ k, k ∈ derivedKeys next.children → mapGet? stale2 k = none) ∧
      (∀ k, k ∉ derivedKeys next.children →
        (∀ p : NavigationState, prev = some p → k ∉ derivedKeys p.children) →
        mapGet? stale2 k = mapGet? (populateMaps scenes ([], [])).1 k) ∧
      (∀ (p : NavigationState) (j : Nat) (r : NavigationRoute), prev = some p →
        (derivedKeys p.children).Nodup → p.children[j]? = some r →
        sceneKey r ∉ derivedKeys next.children →
        mapGet? stale2 (sceneKey r) =
          some (mkStaleScene (freshBase scenes + next.children.length) j r)) := by
  obtain ⟨stOut, frOut, hbf⟩ :=
    buildFresh_isSome (freshBase scenes) next.children 0 [] (populateMaps scenes ([], [])).1 []
      hnodup (by simp)
  obtain ⟨hfr, hst⟩ :=
    buildFresh_spec (freshBase scenes) next.children 0 [] (populateMaps scenes ([], [])).1 []
      stOut frOut hbf (by simp [mapKeys])
  rw [List.nil_append] at hfr
  subst hfr
  have hstale0WF : mapWF (populateMaps scenes ([], [])).1 :=
    (populateMaps_WF scenes [] [] mapWF_nil mapWF_nil).1
  have hstale0v : ∀ v ∈ mapValues (populateMaps scenes ([], [])).1, v.isStale = true :=
    populateMaps_stale_values scenes [] [] (by simp [mapValues])
  have hstOutWF : mapWF stOut :=
    buildFresh_stale_WF (freshBase scenes) next.children 0 [] _ [] stOut _ hbf hstale0WF
  have hstOutv : ∀ v ∈ mapValues stOut, v.isStale = true :=
    buildFresh_stale_values (freshBase scenes) next.children 0 [] _ [] stOut _ hbf hstale0v
  have hfreshkeys : mapKeys (mkCandidates (freshBase scenes) next.children 0) =
      derivedKeys next.children := mkCandidates_keys (freshBase scenes) next.children 0
  cases prev with
  | none =>
    refine ⟨stOut, ?_, hstOutWF, hstOutv, ?_, ?_, ?_⟩
    · simp only [reducerCore]
      rw [hbf]
    · intro k hk
      rw [hst k, if_pos hk]
    · intro k hk _
      rw [hst k, if_neg hk]
    · intro p j r hp
      simp at hp
  | some p =>
    have hfreshHas : ∀ k, k ∈ derivedKeys next.children →
        mapHas (mkCandidates (freshBase scenes) next.children 0) k = true := by
      intro k hk
      rw [mapHas_iff_mem, hfreshkeys]
      exact hk
    have hfreshNotHas : ∀ k, k ∉ derivedKeys next.children →
        mapHas (mkCandidates (freshBase scenes) next.children 0) k = false := by
      intro k hk
      cases hb : mapHas (mkCandidates (freshBase scenes) next.children 0) k
      · rfl
      · exact absurd ((mapHas_iff_mem _ k).mp hb) (hfreshkeys ▸ hk)
    refine ⟨addStale (freshBase scenes + next.children.length)
        (mkCandidates (freshBase scenes) next.children 0) p.children 0 stOut,
      ?_, ?_, ?_, ?_, ?_, ?_⟩
    · simp only [reducerCore]
      rw [hbf]
    · exact addStale_WF _ _ p.children 0 stOut hstOutWF
    · exact addStale_stale_values _ _ p.children 0 stOut hstOutv
    · intro k hk
      rw [addStale_fresh_mem _ _ p.children 0 stOut k (hfreshHas k hk), hst k, if_pos hk]
    · intro k hk hkp
      rw [addStale_not_mem _ _ p.children 0 stOut k (hkp p rfl), hst k, if_neg hk]
    · intro q j r hq hqnd hjr hkr
      have hq' : p = q := by injection hq
      subst hq'
      rw [addStale_get _ _ p.children 0 j stOut r hqnd hjr (hfreshNotHas _ hkr),
        Nat.zero_add]

/-- Off the fast path, a successful call returns the sorted merge of the stale and fresh
map values. -/
theorem reducer_eq_merge (scenes : List NavigationScene) (next : NavigationState)
    (prev : Option NavigationState) (pm st fr : SceneMap)
    (hne : prev ≠ some next)
    (hcore : reducerCore scenes next prev = some (pm, st, fr)) :
    NavigationScenesReducer scenes next prev =
      some (sortScenes ((mapValues st ++ mapValues fr).map (resolveScene pm))) := by
  unfold NavigationScenesReducer
  rw [if_neg hne, hcore]
  simp only [foldl_mergeScene, List.nil_append, List.map_append]

theorem countP_congr_eq (l : List NavigationScene) (p q : NavigationScene → Bool)
    (h : ∀ a ∈ l, p a = q a) : l.countP p = l.countP q := by
  induction l with
  | nil => simp
  | cons a rest ih =>
    simp only [List.countP_cons]
    rw [h a (by simp), ih (fun x hx => h x (by simp [hx]))]

theorem compareKey_asymm_of_ne (a b : String) (hne : a ≠ b)
    (h : compareKey a b = -1) : compareKey b a = 1 := by
  rcases compareKey_values b a with h' | h'
  · exact h'
  · exfalso
    rw [compareKey_neg_one_iff] at h h'
    rcases h with h | ⟨hl, hg⟩
    · rcases h' with h' | ⟨hl', _⟩ <;> omega
    · rcases h' with h' | ⟨hl', hg'⟩
      · omega
      · exact hne (stringGt_connex a b hg hg')

theorem compareScenes_eq_compareKey (a b : NavigationScene) (h : a.index = b.index) :
    compareScenes a b = compareKey a.key b.key := by
  unfold compareScenes
  rw [if_neg (by omega), if_neg (by omega)]

theorem keys_nodup_of_derived (children : List NavigationRoute)
    (h : (derivedKeys children).Nodup) : (children.map NavigationRoute.key).Nodup := by
  have he : derivedKeys children =
      (children.map NavigationRoute.key).map (fun k => "scene_" ++ k) := by
    rw [List.map_map]
    rfl
  rw [he] at h
  exact List.Nodup.of_map _ h

/-! ### Claims -/

/-- C7: Identity fast path — for every scenes list `S` and navigation state `T`, passing the
same state reference as both `nextState` and `prevState` returns exactly `S` (the same
list), regardless of the contents of `S` or `T`. -/
theorem c7_identity_fast_path (scenes : List NavigationScene) (T : NavigationState) :
    NavigationScenesReducer scenes T (some T) = some scenes := by
  unfold NavigationScenesReducer
  rw [if_pos rfl]

/-- C10: Comparator strictness — `compareKey k k = -1` for every string, so `compareScenes`
never returns `0`; for equal index and distinct keys the comparator is antisymmetric, but
for equal index and equal key both orders yield `-1` (no antisymmetry), so the order is
strict and total only when scene keys are pairwise distinct. -/
theorem c10_comparator_strictness :
    (∀ k : String, compareKey k k = -1) ∧
    (∀ a b : NavigationScene, compareScenes a b ≠ 0) ∧
    (∀ a b : NavigationScene, a.index = b.index → a.key ≠ b.key →
      compareScenes a b = -compareScenes b a) ∧
    (∀ a b : NavigationScene, a.index = b.index → a.key = b.key →
      compareScenes a b = -1 ∧ compareScenes b a = -1) := by
  refine ⟨compareKey_self, compareScenes_ne_zero, ?_, ?_⟩
  · intro a b hidx hkey
    rw [compareScenes_eq_compareKey a b hidx, compareScenes_eq_compareKey b a hidx.symm]
    rcases compareKey_values a.key b.key with h | h
    · rw [h, compareKey_antisymm _ _ h]
      decide
    · rw [h, compareKey_asymm_of_ne a.key b.key hkey h]
  · intro a b hidx hkey
    rw [compareScenes_eq_compareKey a b hidx, compareScenes_eq_compareKey b a hidx.symm,
      hkey]
    exact ⟨compareKey_self _, compareKey_self _⟩

/-- Witness for C10 at concrete scenes. -/
theorem c10_comparator_strictness_witness :
    compareKey "scene_a" "scene_a" = -1 ∧
    compareScenes ⟨0, 0, false, "scene_a", ⟨0, "a"⟩⟩ ⟨1, 0, false, "scene_b", ⟨1, "b"⟩⟩ ≠ 0 ∧
    compareScenes ⟨0, 0, false, "scene_a", ⟨0, "a"⟩⟩ ⟨1, 0, false, "scene_b", ⟨1, "b"⟩⟩ =
      -compareScenes ⟨1, 0, false, "scene_b", ⟨1, "b"⟩⟩ ⟨0, 0, false, "scene_a", ⟨0, "a"⟩⟩ ∧
    (compareScenes ⟨0, 0, false, "scene_a", ⟨0, "a"⟩⟩ ⟨1, 0, false, "scene_a", ⟨0, "a"⟩⟩ = -1 ∧
     compareScenes ⟨1, 0, false, "scene_a", ⟨0, "a"⟩⟩ ⟨0, 0, false, "scene_a", ⟨0, "a"⟩⟩ = -1) :=
  ⟨c10_comparator_strictness.1 "scene_a",
   c10_comparator_strictness.2.1 _ _,
   c10_comparator_strictness.2.2.1 _ _ rfl (by decide),
   c10_comparator_strictness.2.2.2 _ _ rfl rfl⟩

/-- C2 counterexample: with duplicate sibling keys but `prevState` reference-equal to
`nextState`, the identity fast path returns the scene list before the invariant is ever
checked, so the claim "two equal keys always fail fatally" is false as stated. -/
theorem c2_duplicate_key_counterexample :
    ¬ ((NavigationState.mk 0 0 [⟨0, "a"⟩, ⟨1, "a"⟩]).children.map
        NavigationRoute.key).Nodup ∧
    NavigationScenesReducer [] ⟨0, 0, [⟨0, "a"⟩, ⟨1, "a"⟩]⟩
        (some ⟨0, 0, [⟨0, "a"⟩, ⟨1, "a"⟩]⟩) = some [] := by
  exact ⟨by decide, by decide⟩

/-- C2 (amended): provided `prevState` is not reference-equal to `nextState`, duplicate
sibling keys make the reducer fail fatally with no scene list; with pairwise-distinct keys
a result is always returned. -/
theorem c2_duplicate_key_rejection (scenes : List NavigationScene)
    (next : NavigationState) (prev : Option NavigationState) :
    (prev ≠ some next → ¬ (next.children.map NavigationRoute.key).Nodup →
      NavigationScenesReducer scenes next prev = none) ∧
    ((next.children.map NavigationRoute.key).Nodup →
      ∃ out, NavigationScenesReducer scenes next prev = some out) := by
  constructor
  · intro hne hdup
    unfold NavigationScenesReducer
    rw [if_neg hne]
    have hdup' : ¬ (derivedKeys next.children).Nodup :=
      fun hn => hdup (keys_nodup_of_derived _ hn)
    simp only [reducerCore]
    rw [buildFresh_dup (freshBase scenes) next.children 0 [] _ [] hdup']
  · intro hnd
    by_cases hne : prev = some next
    · refine ⟨scenes, ?_⟩
      unfold NavigationScenesReducer
      rw [if_pos hne]
    · obtain ⟨st2, hcore, _⟩ := reducerCore_full scenes next prev (derivedKeys_nodup _ hnd)
      exact ⟨_, reducer_eq_merge scenes next prev _ _ _ hne hcore⟩

/-- Witness for C2 (amended) at concrete inputs. -/
theorem c2_duplicate_key_rejection_witness :
    NavigationScenesReducer [] ⟨0, 0, [⟨0, "a"⟩, ⟨1, "a"⟩]⟩ none = none ∧
    ∃ out, NavigationScenesReducer [] ⟨1, 0, [⟨0, "a"⟩, ⟨1, "b"⟩]⟩ none = some out :=
  ⟨(c2_duplicate_key_rejection [] ⟨0, 0, [⟨0, "a"⟩, ⟨1, "a"⟩]⟩ none).1 (by decide)
      (by decide),
   (c2_duplicate_key_rejection [] ⟨1, 0, [⟨0, "a"⟩, ⟨1, "b"⟩]⟩ none).2 (by decide)⟩

/-- C3 counterexample: on the identity fast path the reducer returns the input scene list
unchanged even when it is not sorted by index, so the ordering claim is false for that
returned list. -/
theorem c3_ordering_counterexample :
    NavigationScenesReducer
        [⟨0, 1, false, "scene_b", ⟨1, "b"⟩⟩, ⟨1, 0, false, "scene_a", ⟨0, "a"⟩⟩]
        ⟨0, 0, []⟩ (some ⟨0, 0, []⟩) =
      some [⟨0, 1, false, "scene_b", ⟨1, "b"⟩⟩, ⟨1, 0, false, "scene_a", ⟨0, "a"⟩⟩] ∧
    (⟨0, 1, false, "scene_b", ⟨1, "b"⟩⟩ : NavigationScene).index >
      (⟨1, 0, false, "scene_a", ⟨0, "a"⟩⟩ : NavigationScene).index := by
  exact ⟨by decide, by decide⟩

/-- C3 (amended): every list returned off the identity fast path is sorted: pairwise, the
comparator yields `-1`, i.e. ascending by index with ties broken by the
length-then-lexicographic key order; in particular `"scene_9"` sorts before `"scene_11"`. -/
theorem c3_ordering (scenes : List NavigationScene) (next : NavigationState)
    (prev : Option NavigationState) (out : List NavigationScene)
    (hne : prev ≠ some next)
    (hout : NavigationScenesReducer scenes next prev = some out) :
    out.Pairwise (fun a b => compareScenes a b = -1) ∧
    compareKey "scene_9" "scene_11" = -1 := by
  refine ⟨?_, by decide⟩
  unfold NavigationScenesReducer at hout
  rw [if_neg hne] at hout
  cases hcore : reducerCore scenes next prev with
  | none => rw [hcore] at hout; simp at hout
  | some t =>
    obtain ⟨pm, st, fr⟩ := t
    rw [hcore] at hout
    simp only [Option.some.injEq] at hout
    subst hout
    have hp := sortScenes_pairwise
      (List.foldl (mergeScene pm) (List.foldl (mergeScene pm) [] (mapValues st))
        (mapValues fr))
    refine hp.imp ?_
    intro a b hab
    rcases compareScenes_values a b with h | h <;> omega

/-- Witness for C3 (amended) at a concrete non-fast-path call. -/
theorem c3_ordering_witness :
    ([⟨0, 0, false, "scene_a", ⟨0, "a"⟩⟩] : List NavigationScene).Pairwise
        (fun a b => compareScenes a b = -1) ∧
    compareKey "scene_9" "scene_11" = -1 :=
  c3_ordering [] ⟨0, 0, [⟨0, "a"⟩]⟩ none [⟨0, 0, false, "scene_a", ⟨0, "a"⟩⟩]
    (by decide) (by decide)

/-- C1: Completeness — off the fast path and with pairwise-distinct child keys, every route
`r` of `nextState.children` yields exactly one non-stale output scene whose route is `r`,
and that scene carries the route's position as `index` and `"scene_" ++ r.key` as `key`. -/
theorem c1_completeness (scenes : List NavigationScene) (next : NavigationState)
    (prev : Option NavigationState) (i : Nat) (r : NavigationRoute)
    (hkeys : (next.children.map NavigationRoute.key).Nodup)
    (hne : prev ≠ some next)
    (hr : next.children[i]? = some r) :
    ∃ out, NavigationScenesReducer scenes next prev = some out ∧
      out.countP (fun s => !s.isStale && s.route == r) = 1 ∧
      ∀ s ∈ out, s.isStale = false → s.route = r →
        s.index = i ∧ s.key = "scene_" ++ r.key := by
  have hnd := derivedKeys_nodup _ hkeys
  obtain ⟨st2, hcore, hwf2, hstale2v, hd1, hd2, hd3⟩ := reducerCore_full scenes next prev hnd
  have hred := reducer_eq_merge scenes next prev _ _ _ hne hcore
  have hperm := sortScenes_perm
    ((mapValues st2 ++ mapValues (mkCandidates (freshBase scenes) next.children 0)).map
      (resolveScene (populateMaps scenes ([], [])).2))
  have hres : ∀ s, ((fun s => !s.isStale && s.route == r) ∘
      resolveScene (populateMaps scenes ([], [])).2) s =
      (fun s => !s.isStale && s.route == r) s := by
    intro s
    simp only [Function.comp_apply]
    obtain ⟨_, _, h3, h4⟩ := resolveScene_fields (populateMaps scenes ([], [])).2 s
    simp only [h3, h4]
  refine ⟨_, hred, ?_, ?_⟩
  · rw [hperm.countP_eq, List.countP_map, List.countP_append]
    have hstalezero : (mapValues st2).countP
        ((fun s => !s.isStale && s.route == r) ∘
          resolveScene (populateMaps scenes ([], [])).2) = 0 := by
      refine countP_eq_zero_of_none _ _ (fun v hv => ?_)
      rw [hres v]
      simp [hstale2v v hv]
    have hfreshone : (mapValues (mkCandidates (freshBase scenes) next.children 0)).countP
        ((fun s => !s.isStale && s.route == r) ∘
          resolveScene (populateMaps scenes ([], [])).2) = 1 := by
      have hcongr := countP_congr_eq
        (mapValues (mkCandidates (freshBase scenes) next.children 0))
        ((fun s => !s.isStale && s.route == r) ∘
          resolveScene (populateMaps scenes ([], [])).2)
        (fun s => !s.isStale && s.route == r)
        (fun a _ => hres a)
      rw [hcongr, mkCandidates_countP_route]
      have hmem : r ∈ next.children := by
        obtain ⟨hlt, hg⟩ := List.getElem?_eq_some_iff.mp hr
        exact hg ▸ List.getElem_mem hlt
      exact List.count_eq_one_of_mem (List.Nodup.of_map _ hkeys) hmem
    rw [hstalezero, hfreshone]
  · intro s hs hstale hroute
    have hsmem := hperm.mem_iff.mp hs
    obtain ⟨c, hc, hcs⟩ := List.mem_map.mp hsmem
    obtain ⟨hf1, hf2, hf3, hf4⟩ :=
      resolveScene_fields (populateMaps scenes ([], [])).2 c
    rcases List.mem_append.mp hc with hcst | hcfr
    · exfalso
      have hcontra : s.isStale = true := by
        rw [← hcs, hf3]
        exact hstale2v c hcst
      rw [hstale] at hcontra
      exact Bool.false_ne_true hcontra
    · obtain ⟨j, r', hj, hc'⟩ :=
        mem_mkCandidates (freshBase scenes) next.children 0 c hcfr
      have hroute' : c.route = r := by
        rw [← hcs, hf4] at hroute
        exact hroute
      have hr' : r' = r := by
        rw [hc'] at hroute'
        simpa [mkFreshScene] using hroute'
      subst hr'
      have hij : i = j := by
        have hlt : i < next.children.length := (List.getElem?_eq_some_iff.mp hr).1
        exact List.getElem?_inj hlt (List.Nodup.of_map _ hkeys) (hr.trans hj.symm)
      subst hij
      constructor
      · rw [← hcs, hf2, hc']
        simp [mkFreshScene]
      · rw [← hcs, hf1, hc']
        simp [mkFreshScene, sceneKey]

/-- Witness for C1 at a concrete call. -/
theorem c1_completeness_witness :
    ∃ out, NavigationScenesReducer [] ⟨0, 0, [⟨5, "a"⟩, ⟨6, "b"⟩]⟩ none = some out ∧
      out.countP (fun s => !s.isStale && s.route == (⟨6, "b"⟩ : NavigationRoute)) = 1 ∧
      ∀ s ∈ out, s.isStale = false → s.route = (⟨6, "b"⟩ : NavigationRoute) →
        s.index = 1 ∧ s.key = "scene_" ++ (⟨6, "b"⟩ : NavigationRoute).key :=
  c1_completeness [] ⟨0, 0, [⟨5, "a"⟩, ⟨6, "b"⟩]⟩ none 1 ⟨6, "b"⟩ (by decide) (by decide)
    (by decide)

theorem mapValues_get (m : SceneMap) (hwf : mapWF m) (v : NavigationScene)
    (hv : v ∈ mapValues m) : mapGet? m v.key = some v := by
  obtain ⟨q, hm, hveq⟩ := List.mem_map.mp hv
  obtain ⟨k1, v1⟩ := q
  have hv1 : v1 = v := hveq
  subst hv1
  have hk : v1.key = k1 := hwf.2 (k1, v1) hm
  rw [hk]
  exact mem_mapGet? m k1 v1 hwf.1 hm

/-- C6: Revival — if a stale scene of `previousScenes` carries the derived key of a route
present in `nextState.children`, then the output holds exactly one scene with that key and
it is not stale (off the fast path, with pairwise-distinct child keys). -/
theorem c6_revival (scenes : List NavigationScene) (next : NavigationState)
    (prev : Option NavigationState) (p : NavigationScene) (r : NavigationRoute)
    (hkeys : (next.children.map NavigationRoute.key).Nodup)
    (hne : prev ≠ some next)
    (hp : p ∈ scenes) (hpstale : p.isStale = true)
    (hr : r ∈ next.children) (hpkey : p.key = "scene_" ++ r.key) :
    ∃ out, NavigationScenesReducer scenes next prev = some out ∧
      (∀ s ∈ out, s.key = "scene_" ++ r.key → s.isStale = false) ∧
      out.countP (fun s => s.key == "scene_" ++ r.key) = 1 := by
  have hnd := derivedKeys_nodup _ hkeys
  obtain ⟨st2, hcore, hwf2, hstale2v, hd1, hd2, hd3⟩ := reducerCore_full scenes next prev hnd
  have hred := reducer_eq_merge scenes next prev _ _ _ hne hcore
  have hperm := sortScenes_perm
    ((mapValues st2 ++ mapValues (mkCandidates (freshBase scenes) next.children 0)).map
      (resolveScene (populateMaps scenes ([], [])).2))
  have hkmem : sceneKey r ∈ derivedKeys next.children := List.mem_map_of_mem sceneKey hr
  have hnone : mapGet? st2 ("scene_" ++ r.key) = none := hd1 _ hkmem
  have hres : ∀ s, ((fun s => s.key == "scene_" ++ r.key) ∘
      resolveScene (populateMaps scenes ([], [])).2) s =
      (fun s => s.key == "scene_" ++ r.key) s := by
    intro s
    simp only [Function.comp_apply]
    obtain ⟨h1, _, _, _⟩ := resolveScene_fields (populateMaps scenes ([], [])).2 s
    simp only [h1]
  refine ⟨_, hred, ?_, ?_⟩
  · intro s hs hskey
    obtain ⟨c, hc, hcs⟩ := List.mem_map.mp (hperm.mem_iff.mp hs)
    obtain ⟨hf1, hf2, hf3, hf4⟩ := resolveScene_fields (populateMaps scenes ([], [])).2 c
    rcases List.mem_append.mp hc with hcst | hcfr
    · exfalso
      have hckey : c.key = "scene_" ++ r.key := by
        rw [← hcs, hf1] at hskey
        exact hskey
      have hget := mapValues_get st2 hwf2 c hcst
      rw [hckey, hnone] at hget
      exact Option.noConfusion hget
    · obtain ⟨j, r', hj, hc'⟩ := mem_mkCandidates _ _ _ c hcfr
      rw [← hcs, hf3, hc']
      rfl
  · rw [hperm.countP_eq, List.countP_map, List.countP_append]
    have hzero : (mapValues st2).countP ((fun s => s.key == "scene_" ++ r.key) ∘
        resolveScene (populateMaps scenes ([], [])).2) = 0 := by
      refine countP_eq_zero_of_none _ _ (fun v hv => ?_)
      rw [hres v]
      simp only [beq_eq_false_iff_ne, ne_eq]
      intro hveq
      have hget := mapValues_get st2 hwf2 v hv
      rw [hveq, hnone] at hget
      exact Option.noConfusion hget
    have hone : (mapValues (mkCandidates (freshBase scenes) next.children 0)).countP
        ((fun s => s.key == "scene_" ++ r.key) ∘
          resolveScene (populateMaps scenes ([], [])).2) = 1 := by
      have hcongr := countP_congr_eq
        (mapValues (mkCandidates (freshBase scenes) next.children 0))
        ((fun s => s.key == "scene_" ++ r.key) ∘
          resolveScene (populateMaps scenes ([], [])).2)
        (fun s => s.key == "scene_" ++ r.key)
        (fun a _ => hres a)
      rw [hcongr]
      rw [mapValues_countP _ ("scene_" ++ r.key) _ (mkCandidates_WF _ _ _ hnd)
        (fun s hsk => beq_iff_eq.mp hsk)]
      obtain ⟨j, hjlt, hjr⟩ := List.getElem_of_mem hr
      have hj : next.children[j]? = some r :=
        List.getElem?_eq_some_iff.mpr ⟨hjlt, hjr⟩
      have hget : mapGet? (mkCandidates (freshBase scenes) next.children 0)
          ("scene_" ++ r.key) = some (mkFreshScene (freshBase scenes) (0 + j) r) :=
        mkCandidates_get (freshBase scenes) next.children 0 j r hnd hj
      rw [hget]
      simp [mkFreshScene, sceneKey]
    rw [hzero, hone]

/-- Witness for C6 at a concrete call. -/
theorem c6_revival_witness :
    ∃ out, NavigationScenesReducer [⟨0, 0, true, "scene_a", ⟨7, "a"⟩⟩] ⟨1, 0, [⟨7, "a"⟩]⟩
        none = some out ∧
      (∀ s ∈ out, s.key = "scene_" ++ (⟨7, "a"⟩ : NavigationRoute).key →
        s.isStale = false) ∧
      out.countP (fun s => s.key == "scene_" ++ (⟨7, "a"⟩ : NavigationRoute).key) = 1 :=
  c6_revival [⟨0, 0, true, "scene_a", ⟨7, "a"⟩⟩] ⟨1, 0, [⟨7, "a"⟩]⟩ none
    ⟨0, 0, true, "scene_a", ⟨7, "a"⟩⟩ ⟨7, "a"⟩ (by decide) (by decide) (by decide)
    (by decide) (by decide) (by decide)

/-- C5: Stale retention — a route of `previousState.children` whose derived key is absent
from the fresh set yields exactly one stale output scene with that key, carrying the
route's position in `previousState.children` as its `index` (child keys assumed pairwise
distinct on both states, per the data-model invariant). -/
theorem c5_stale_retention (scenes : List NavigationScene) (next : NavigationState)
    (prevSt : NavigationState) (i : Nat) (r : NavigationRoute)
    (hkeys : (next.children.map NavigationRoute.key).Nodup)
    (hprevkeys : (prevSt.children.map NavigationRoute.key).Nodup)
    (hr : prevSt.children[i]? = some r)
    (habsent : ("scene_" ++ r.key) ∉ derivedKeys next.children) :
    ∃ out, NavigationScenesReducer scenes next (some prevSt) = some out ∧
      out.countP (fun s => s.key == "scene_" ++ r.key && s.isStale) = 1 ∧
      ∀ s ∈ out, s.key = "scene_" ++ r.key → s.isStale = true → s.index = i := by
  have hrmem : r ∈ prevSt.children := by
    obtain ⟨hlt, hg⟩ := List.getElem?_eq_some_iff.mp hr
    exact hg ▸ List.getElem_mem hlt
  have hne : (some prevSt : Option NavigationState) ≠ some next := by
    intro he
    have hpn : prevSt = next := by injection he
    subst hpn
    exact habsent (List.mem_map_of_mem sceneKey hrmem)
  have hnd := derivedKeys_nodup _ hkeys
  have hpnd := derivedKeys_nodup _ hprevkeys
  obtain ⟨st2, hcore, hwf2, hstale2v, hd1, hd2, hd3⟩ :=
    reducerCore_full scenes next (some prevSt) hnd
  have hred := reducer_eq_merge scenes next (some prevSt) _ _ _ hne hcore
  have hperm := sortScenes_perm
    ((mapValues st2 ++ mapValues (mkCandidates (freshBase scenes) next.children 0)).map
      (resolveScene (populateMaps scenes ([], [])).2))
  have hget : mapGet? st2 ("scene_" ++ r.key) =
      some (mkStaleScene (freshBase scenes + next.children.length) i r) :=
    hd3 prevSt i r rfl hpnd hr habsent
  have hres : ∀ s, ((fun s => s.key == "scene_" ++ r.key && s.isStale) ∘
      resolveScene (populateMaps scenes ([], [])).2) s =
      (fun s => s.key == "scene_" ++ r.key && s.isStale) s := by
    intro s
    simp only [Function.comp_apply]
    obtain ⟨h1, _, h3, _⟩ := resolveScene_fields (populateMaps scenes ([], [])).2 s
    simp only [h1, h3]
  refine ⟨_, hred, ?_, ?_⟩
  · rw [hperm.countP_eq, List.countP_map, List.countP_append]
    have hone : (mapValues st2).countP ((fun s => s.key == "scene_" ++ r.key && s.isStale) ∘
        resolveScene (populateMaps scenes ([], [])).2) = 1 := by
      have hcongr := countP_congr_eq (mapValues st2)
        ((fun s => s.key == "scene_" ++ r.key && s.isStale) ∘
          resolveScene (populateMaps scenes ([], [])).2)
        (fun s => s.key == "scene_" ++ r.key && s.isStale)
        (fun a _ => hres a)
      rw [hcongr]
      rw [mapValues_countP _ ("scene_" ++ r.key) _ hwf2
        (fun s hsk => beq_iff_eq.mp (Bool.and_elim_left hsk))]
      rw [hget]
      simp [mkStaleScene, sceneKey]
    have hzero : (mapValues (mkCandidates (freshBase scenes) next.children 0)).countP
        ((fun s => s.key == "scene_" ++ r.key && s.isStale) ∘
          resolveScene (populateMaps scenes ([], [])).2) = 0 := by
      refine countP_eq_zero_of_none _ _ (fun v hv => ?_)
      rw [hres v]
      obtain ⟨j, r', hj, hv'⟩ := mem_mkCandidates _ _ _ v hv
      rw [hv']
      simp [mkFreshScene]
    rw [hone, hzero]
  · intro s hs hskey hsstale
    obtain ⟨c, hc, hcs⟩ := List.mem_map.mp (hperm.mem_iff.mp hs)
    obtain ⟨hf1, hf2, hf3, hf4⟩ := resolveScene_fields (populateMaps scenes ([], [])).2 c
    rcases List.mem_append.mp hc with hcst | hcfr
    · have hckey : c.key = "scene_" ++ r.key := by
        rw [← hcs, hf1] at hskey
        exact hskey
      have hcget := mapValues_get st2 hwf2 c hcst
      rw [hckey, hget] at hcget
      have hc' : mkStaleScene (freshBase scenes + next.children.length) i r = c := by
        injection hcget
      rw [← hcs, hf2, ← hc']
      rfl
    · exfalso
      obtain ⟨j, r', hj, hc'⟩ := mem_mkCandidates _ _ _ c hcfr
      have : s.isStale = false := by
        rw [← hcs, hf3, hc']
        rfl
      rw [hsstale] at this
      exact Bool.noConfusion this

/-- Witness for C5 at a concrete call. -/
theorem c5_stale_retention_witness :
    ∃ out, NavigationScenesReducer [] ⟨0, 0, []⟩ (some ⟨1, 0, [⟨3, "a"⟩]⟩) = some out ∧
      out.countP (fun s => s.key == "scene_" ++ (⟨3, "a"⟩ : NavigationRoute).key &&
        s.isStale) = 1 ∧
      ∀ s ∈ out, s.key = "scene_" ++ (⟨3, "a"⟩ : NavigationRoute).key → s.isStale = true →
        s.index = 0 :=
  c5_stale_retention [] ⟨0, 0, []⟩ ⟨1, 0, [⟨3, "a"⟩]⟩ 0 ⟨3, "a"⟩ (by decide) (by decide)
    (by decide) (by decide)

theorem reducerCore_prevM (scenes : List NavigationScene) (next : NavigationState)
    (prev : Option NavigationState) (pm st fr : SceneMap)
    (h : reducerCore scenes next prev = some (pm, st, fr)) :
    pm = (populateMaps scenes ([], [])).2 := by
  simp only [reducerCore] at h
  cases hbf : buildFresh (freshBase scenes) next.children 0 []
      (populateMaps scenes ([], [])).1 [] with
  | none => rw [hbf] at h; simp at h
  | some pr =>
    obtain ⟨st1, fr1⟩ := pr
    rw [hbf] at h
    simp only [Option.some.injEq, Prod.mk.injEq] at h
    exact h.1.symm

/-- C9: Output key uniqueness — off the fast path, with pairwise-distinct child keys, no
two scenes of the returned list share a key; at merge time the stale and fresh maps are
key-disjoint, and each map holds at most one scene per key. -/
theorem c9_key_uniqueness (scenes : List NavigationScene) (next : NavigationState)
    (prev : Option NavigationState)
    (hkeys : (next.children.map NavigationRoute.key).Nodup)
    (hne : prev ≠ some next) :
    ∃ prevM stale fresh out,
      reducerCore scenes next prev = some (prevM, stale, fresh) ∧
      NavigationScenesReducer scenes next prev = some out ∧
      (out.map NavigationScene.key).Nodup ∧
      (mapKeys stale).Nodup ∧ (mapKeys fresh).Nodup ∧
      ∀ k, mapHas stale k = true → mapHas fresh k = false := by
  have hnd := derivedKeys_nodup _ hkeys
  obtain ⟨st2, hcore, hwf2, hstale2v, hd1, hd2, hd3⟩ := reducerCore_full scenes next prev hnd
  have hred := reducer_eq_merge scenes next prev _ _ _ hne hcore
  have hfwf : mapWF (mkCandidates (freshBase scenes) next.children 0) :=
    mkCandidates_WF _ _ _ hnd
  have hdisj : ∀ k, mapHas st2 k = true →
      mapHas (mkCandidates (freshBase scenes) next.children 0) k = false := by
    intro k hst
    cases hb : mapHas (mkCandidates (freshBase scenes) next.children 0) k
    · rfl
    · exfalso
      have hk : k ∈ derivedKeys next.children := by
        rw [← mkCandidates_keys (freshBase scenes) next.children 0]
        exact (mapHas_iff_mem _ k).mp hb
      have hnonek := hd1 k hk
      rw [mapHas, hnonek] at hst
      simp at hst
  refine ⟨_, st2, _, _, hcore, hred, ?_, hwf2.1, hfwf.1, hdisj⟩
  have hmkeys : (((mapValues st2 ++
      mapValues (mkCandidates (freshBase scenes) next.children 0)).map
        (resolveScene (populateMaps scenes ([], [])).2)).map NavigationScene.key) =
      mapKeys st2 ++ mapKeys (mkCandidates (freshBase scenes) next.children 0) := by
    rw [List.map_map]
    have hcg : (mapValues st2 ++
        mapValues (mkCandidates (freshBase scenes) next.children 0)).map
          (NavigationScene.key ∘ resolveScene (populateMaps scenes ([], [])).2) =
        (mapValues st2 ++
          mapValues (mkCandidates (freshBase scenes) next.children 0)).map
            NavigationScene.key := by
      refine List.map_congr_left (fun a _ => ?_)
      exact (resolveScene_fields (populateMaps scenes ([], [])).2 a).1
    rw [hcg, List.map_append]
    rw [mapValues_key_eq _ hwf2, mapValues_key_eq _ hfwf]
  have hnodupMerged : (((mapValues st2 ++
      mapValues (mkCandidates (freshBase scenes) next.children 0)).map
        (resolveScene (populateMaps scenes ([], [])).2)).map NavigationScene.key).Nodup := by
    rw [hmkeys]
    refine List.Nodup.append hwf2.1 hfwf.1 ?_
    rw [List.disjoint_left]
    intro k hk1 hk2
    have h1 : mapHas st2 k = true := (mapHas_iff_mem _ _).mpr hk1
    have h2 := hdisj k h1
    have h3 : mapHas (mkCandidates (freshBase scenes) next.children 0) k = true :=
      (mapHas_iff_mem _ _).mpr hk2
    rw [h3] at h2
    exact Bool.noConfusion h2
  have hperm := (sortScenes_perm ((mapValues st2 ++
      mapValues (mkCandidates (freshBase scenes) next.children 0)).map
        (resolveScene (populateMaps scenes ([], [])).2))).map NavigationScene.key
  exact hperm.nodup_iff.mpr hnodupMerged

/-- Witness for C9 at a concrete call. -/
theorem c9_key_uniqueness_witness :
    ∃ prevM stale fresh out,
      reducerCore [] ⟨0, 0, [⟨1, "a"⟩]⟩ none = some (prevM, stale, fresh) ∧
      NavigationScenesReducer [] ⟨0, 0, [⟨1, "a"⟩]⟩ none = some out ∧
      (out.map NavigationScene.key).Nodup ∧
      (mapKeys stale).Nodup ∧ (mapKeys fresh).Nodup ∧
      ∀ k, mapHas stale k = true → mapHas fresh k = false :=
  c9_key_uniqueness [] ⟨0, 0, [⟨1, "a"⟩]⟩ none (by decide) (by decide)

/-- C4: Identity preservation — when a candidate scene of the current call is shallow-equal
to the previous scene stored under the same key, the merge emits that previous scene object
itself (the incoming list element), not the freshly built candidate. -/
theorem c4_identity_preservation (scenes : List NavigationScene) (next : NavigationState)
    (prev : Option NavigationState) (prevM stale fresh : SceneMap)
    (c p : NavigationScene)
    (hscene : (scenes.map NavigationScene.key).Nodup)
    (hne : prev ≠ some next)
    (hcore : reducerCore scenes next prev = some (prevM, stale, fresh))
    (hc : c ∈ mapValues stale ++ mapValues fresh)
    (hp : p ∈ scenes) (hkey : p.key = c.key)
    (heq : areScenesShallowEqual p c = true) :
    resolveScene prevM c = p ∧
    ∃ out, NavigationScenesReducer scenes next prev = some out ∧ p ∈ out := by
  have hpm := reducerCore_prevM scenes next prev prevM stale fresh hcore
  subst hpm
  have hgetp : mapGet? (populateMaps scenes ([], [])).2 c.key = some p := by
    rw [← hkey]
    exact populateMaps_prev_get scenes [] [] p hscene hp
  have hresolve : resolveScene (populateMaps scenes ([], [])).2 c = p := by
    unfold resolveScene
    simp only [hgetp]
    rw [if_pos heq]
  refine ⟨hresolve, _, reducer_eq_merge scenes next prev _ _ _ hne hcore, ?_⟩
  have hperm := sortScenes_perm ((mapValues stale ++ mapValues fresh).map
    (resolveScene (populateMaps scenes ([], [])).2))
  rw [hperm.mem_iff]
  exact List.mem_map.mpr ⟨c, hc, hresolve⟩

/-- Witness for C4 at a concrete call: the incoming scene (identity token 5) ends up in the
output instead of the freshly built candidate (identity token 6). -/
theorem c4_identity_preservation_witness :
    resolveScene [("scene_a", ⟨5, 0, false, "scene_a", ⟨1, "a"⟩⟩)]
        ⟨6, 0, false, "scene_a", ⟨1, "a"⟩⟩ = ⟨5, 0, false, "scene_a", ⟨1, "a"⟩⟩ ∧
    ∃ out, NavigationScenesReducer [⟨5, 0, false, "scene_a", ⟨1, "a"⟩⟩]
        ⟨0, 0, [⟨1, "a"⟩]⟩ none = some out ∧
      (⟨5, 0, false, "scene_a", ⟨1, "a"⟩⟩ : NavigationScene) ∈ out :=
  c4_identity_preservation [⟨5, 0, false, "scene_a", ⟨1, "a"⟩⟩] ⟨0, 0, [⟨1, "a"⟩]⟩ none
    [("scene_a", ⟨5, 0, false, "scene_a", ⟨1, "a"⟩⟩)] []
    [("scene_a", ⟨6, 0, false, "scene_a", ⟨1, "a"⟩⟩)]
    ⟨6, 0, false, "scene_a", ⟨1, "a"⟩⟩ ⟨5, 0, false, "scene_a", ⟨1, "a"⟩⟩
    (by decide) (by decide) (by decide) (by decide) (by decide) (by decide) (by decide)

/-- C8 counterexample: a scene made stale in one call and fed back as `previousScenes` is
still present in the output of the next call although its route is absent from both the new
state and the previous state — the code re-inserts carried stale scenes into the stale map
on every call, so stale scenes persist until revived, not for exactly one cycle. -/
theorem c8_stale_lifetime_counterexample :
    NavigationScenesReducer [⟨0, 0, false, "scene_a", ⟨1, "a"⟩⟩] ⟨2, 0, []⟩
        (some ⟨3, 0, [⟨1, "a"⟩]⟩) = some [⟨1, 0, true, "scene_a", ⟨1, "a"⟩⟩] ∧
    NavigationScenesReducer [⟨1, 0, true, "scene_a", ⟨1, "a"⟩⟩] ⟨4, 0, []⟩
        (some ⟨2, 0, []⟩) = some [⟨1, 0, true, "scene_a", ⟨1, "a"⟩⟩] ∧
    (⟨1, 0, true, "scene_a", ⟨1, "a"⟩⟩ : NavigationScene).isStale = true := by
  exact ⟨by decide, by decide, rfl⟩

/-- C8 (amended): a stale scene persists in every subsequent output until revived — fed
back as part of `previousScenes` with its key absent from both the new state's and the
previous state's derived keys, it reappears (the same object) in the next output; it is
dropped only once it is no longer carried by the stale set. -/
theorem c8_stale_persistence (scenes : List NavigationScene) (next : NavigationState)
    (prev : Option NavigationState) (s : NavigationScene)
    (hscene : (scenes.map NavigationScene.key).Nodup)
    (hkeys : (next.children.map NavigationRoute.key).Nodup)
    (hne : prev ≠ some next)
    (hs : s ∈ scenes) (hstale : s.isStale = true)
    (habsnext : s.key ∉ derivedKeys next.children)
    (habsprev : ∀ pst, prev = some pst → s.key ∉ derivedKeys pst.children) :
    ∃ out, NavigationScenesReducer scenes next prev = some out ∧ s ∈ out := by
  have hnd := derivedKeys_nodup _ hkeys
  obtain ⟨st2, hcore, hwf2, hstale2v, hd1, hd2, hd3⟩ := reducerCore_full scenes next prev hnd
  have hred := reducer_eq_merge scenes next prev _ _ _ hne hcore
  have hst0 : mapGet? (populateMaps scenes ([], [])).1 s.key = some s :=
    populateMaps_stale_get scenes [] [] s hscene hs hstale
  have hget : mapGet? st2 s.key = some s := by
    rw [hd2 s.key habsnext habsprev]
    exact hst0
  have hmem : (s.key, s) ∈ st2 := mapGet?_mem st2 s.key s hget
  have hmemv : s ∈ mapValues st2 := List.mem_map_of_mem Prod.snd hmem
  have hresolve : resolveScene (populateMaps scenes ([], [])).2 s = s := by
    unfold resolveScene
    have hp : mapGet? (populateMaps scenes ([], [])).2 s.key = some s :=
      populateMaps_prev_get scenes [] [] s hscene hs
    simp only [hp]
    rw [if_pos (areScenesShallowEqual_refl s)]
  refine ⟨_, hred, ?_⟩
  have hperm := sortScenes_perm ((mapValues st2 ++
    mapValues (mkCandidates (freshBase scenes) next.children 0)).map
      (resolveScene (populateMaps scenes ([], [])).2))
  rw [hperm.mem_iff]
  exact List.mem_map.mpr ⟨s, List.mem_append_left _ hmemv, hresolve⟩

/-- Witness for C8 (amended) at the fed-back call of the counterexample. -/
theorem c8_stale_persistence_witness :
    ∃ out, NavigationScenesReducer [⟨1, 0, true, "scene_a", ⟨1, "a"⟩⟩] ⟨4, 0, []⟩
        (some ⟨2, 0, []⟩) = some out ∧
      (⟨1, 0, true, "scene_a", ⟨1, "a"⟩⟩ : NavigationScene) ∈ out :=
  c8_stale_persistence [⟨1, 0, true, "scene_a", ⟨1, "a"⟩⟩] ⟨4, 0, []⟩ (some ⟨2, 0, []⟩)
    ⟨1, 0, true, "scene_a", ⟨1, "a"⟩⟩ (by decide) (by decide) (by decide) (by decide)
    (by decide) (by decide)
    (by
      intro pst hp
      injection hp with h
      subst h
      decide)
